import Mathlib

/-!
Verification development for the transcript structuring & normalization
engine of the `aivoice` repository.

The engine lives in `src/components/TranscriptionPanel.tsx`
(`normalizeGeminiTimestamps`, `compressConsecutiveSpeakers`,
`stripMarkdownTokens`, `renderAiImprovedPreview`,
`countSpeakersFromTranscription`) and, duplicated, in
`src/components/PDFExport.tsx` (`compressConsecutiveSpeakers`,
`parseTranscriptionBlocks`).

Modelling conventions:
* JavaScript strings are modelled as Lean `String` / `List Char`.
  `TranscriptionPanel.tsx` is stored with a double UTF-8 encoding; its
  literals and regexes are embedded here with their intended characters
  (the same ones `PDFExport.tsx` uses), which is an injective renaming of
  the alphabet and hence behaviour-preserving.
* Each JavaScript regex used by the engine is hand-compiled into a
  deterministic Lean parser that follows the backtracking behaviour of the
  ECMAScript regex engine on that particular pattern (the patterns are
  simple enough that greedy/lazy choices resolve deterministically; this
  is argued case by case in comments).
* Case-insensitive (`/i`) matching is modelled by the canonicalisation map
  `canonC`, which covers ASCII plus the Turkish letters appearing in the
  engine's patterns and inputs, following ECMAScript `Canonicalize` for
  non-`u` regexes (in particular the dotless `ı` is *not* identified with
  `I`, because its upper case is ASCII while it is not).
* `String.prototype.toLowerCase` is modelled by `jsLowerC` on the involved
  characters; in particular `'I'.toLowerCase() = 'i'` (dotted), which is
  what makes `'BAŞLIK'.toLowerCase() ≠ 'başlık'`.
-/

namespace AiVoice

/-- The JavaScript `\s` character set (WhiteSpace ∪ LineTerminator). -/
def isWsC (c : Char) : Bool :=
  c = ' ' || c = '\t' || c = '\n' || c = '\r' ||
  c.toNat = 0x0b || c.toNat = 0x0c ||
  c.toNat = 0xa0 || c.toNat = 0x1680 ||
  (0x2000 ≤ c.toNat && c.toNat ≤ 0x200a) ||
  c.toNat = 0x2028 || c.toNat = 0x2029 ||
  c.toNat = 0x202f || c.toNat = 0x205f ||
  c.toNat = 0x3000 || c.toNat = 0xfeff

/-- ECMAScript line terminators; `.` in a regex matches anything else. -/
def isTermC (c : Char) : Bool :=
  c = '\n' || c = '\r' || c.toNat = 0x2028 || c.toNat = 0x2029

/-- `s` contains no line terminator (needed for a `(.*)$` tail to match). -/
def termFree (s : List Char) : Bool := s.all (fun c => !(isTermC c))

/-- ECMAScript `Canonicalize` for case-insensitive non-`u` regexes,
restricted to ASCII plus the Turkish letters used by the engine.
`ı` stays `ı` (its uppercase `I` is ASCII while `ı` is not, so the
conversion is suppressed). -/
def canonC (c : Char) : Char :=
  if 'a' ≤ c && c ≤ 'z' then Char.ofNat (c.toNat - 32)
  else if c = 'ş' then 'Ş'
  else if c = 'ç' then 'Ç'
  else if c = 'ö' then 'Ö'
  else if c = 'ü' then 'Ü'
  else if c = 'ğ' then 'Ğ'
  else c

/-- `String.prototype.toLowerCase`, restricted to the characters relevant
here.  `'I'` maps to dotted `'i'` (the default, locale-independent
mapping), and `'İ'` — whose real image is the two-character string
`"i̇"` — is left unchanged (it is never fed to the comparison the engine
performs). -/
def jsLowerC (c : Char) : Char :=
  if 'A' ≤ c && c ≤ 'Z' then Char.ofNat (c.toNat + 32)
  else if c = 'Ş' then 'ş'
  else if c = 'Ç' then 'ç'
  else if c = 'Ö' then 'ö'
  else if c = 'Ü' then 'ü'
  else if c = 'Ğ' then 'ğ'
  else c

/-- `String.prototype.toUpperCase` on a single ASCII letter. -/
def jsUpperC (c : Char) : Char :=
  if 'a' ≤ c && c ≤ 'z' then Char.ofNat (c.toNat - 32) else c

/-- JavaScript `String.prototype.trim`. -/
def trimB (s : List Char) : List Char :=
  ((s.dropWhile isWsC).reverse.dropWhile isWsC).reverse

/-- JavaScript `String.prototype.trimEnd`. -/
def trimEndL (s : List Char) : List Char :=
  (s.reverse.dropWhile isWsC).reverse

/-- `text.split('\n')`: always at least one field, empty fields kept. -/
def splitNl : List Char → List (List Char)
  | [] => [[]]
  | c :: t =>
    if c = '\n' then [] :: splitNl t
    else
      match splitNl t with
      | [] => [[c]]
      | l :: ls => (c :: l) :: ls

/-- `lines.join('\n')`. -/
def joinNl : List (List Char) → List Char
  | [] => []
  | [l] => l
  | l :: l' :: ls => l ++ '\n' :: joinNl (l' :: ls)

/-! ### The timestamp rewrite stage

`text.replace(/\[(\d{1,2})\.(\d{2})\]/g, ...)` inside
`normalizeGeminiTimestamps` (TranscriptionPanel.tsx lines 544-548).
The pattern is deterministic: after `[` the engine takes as many digits as
possible (up to 2); if two digits are not followed by `.`, retrying with
one digit puts a digit where `.` is required, so the whole attempt fails —
which is exactly the case analysis below. -/

/-- Try to match `(\d{1,2})\.(\d{2})\]` at the head of `s`; returns the
minute digits, the second digits and the rest after `]`.  The two-digit
read of `\d{1,2}` is attempted first (greedy); when the first two
characters are digits the one-digit retry would place a digit where `.`
is required, so the branches below are exhaustive and disjoint. -/
def tryTs : List Char → Option (List Char × List Char × List Char)
  | a :: b :: c :: d :: e :: f :: r =>
    if a.isDigit && b.isDigit && c = '.' && d.isDigit && e.isDigit && f = ']' then
      some ([a, b], [d, e], r)
    else if a.isDigit && b = '.' && c.isDigit && d.isDigit && e = ']' then
      some ([a], [c, d], f :: r)
    else none
  | [a, b, c, d, e] =>
    if a.isDigit && b = '.' && c.isDigit && d.isDigit && e = ']' then
      some ([a], [c, d], [])
    else none
  | _ => none

theorem tryTs_some_length {t m s r} (h : tryTs t = some (m, s, r)) :
    r.length + 5 ≤ t.length := by
  unfold tryTs at h
  split at h
  · split at h
    · have h' := Option.some.inj h
      injection h' with h1 h'
      injection h' with h2 h3
      subst h3
      simp only [List.length_cons]
      omega
    · split at h
      · have h' := Option.some.inj h
        injection h' with h1 h'
        injection h' with h2 h3
        subst h3
        simp only [List.length_cons]
        omega
      · simp at h
  · split at h
    · have h' := Option.some.inj h
      injection h' with h1 h'
      injection h' with h2 h3
      subst h3
      simp
    · simp at h
  · simp at h

/-- `minutes.padStart(2, '0')` for a 1- or 2-digit group. -/
def padMin (m : List Char) : List Char :=
  match m with
  | [a] => ['0', a]
  | _ => m

/-- The global replace itself: left-to-right scan, rewriting each
`[m.ss]` occurrence to `[mm:ss]`.  Fuelled so that it is structurally
recursive (every recursive call consumes at least one character, so
`fuel = length` always suffices; see `tsScan`). -/
def tsScanF : Nat → List Char → List Char
  | 0, s => s
  | _ + 1, [] => []
  | fuel + 1, c :: t =>
    if c = '[' then
      match tryTs t with
      | some (m, s, rest) =>
        '[' :: (padMin m ++ ':' :: s ++ ']' :: tsScanF fuel rest)
      | none => '[' :: tsScanF fuel t
    else c :: tsScanF fuel t

/-- The timestamp-rewriting global replace on a character list. -/
def tsScan (s : List Char) : List Char := tsScanF s.length s

/-- The `withNormalizedTimes` stage of `normalizeGeminiTimestamps`
(the TimestampNormalizer component), as a `String` function. -/
def normalizeTimestampsStage (text : String) : String :=
  ⟨tsScan text.data⟩

/-- Decidable check: does `s` contain an occurrence of the timestamp
pattern `\[(\d{1,2})\.(\d{2})\]` anywhere?  (Specification-side predicate
for C6.) -/
def hasTs : List Char → Bool
  | [] => false
  | c :: t => (c = '[' && (tryTs t).isSome) || hasTs t

/-! ### Shared regex building blocks -/

/-- Case-insensitive match of the literal `p` at the head of `s`
(ECMAScript canonicalisation); returns the rest on success. -/
def matchCi : List Char → List Char → Option (List Char)
  | [], s => some s
  | _ :: _, [] => none
  | p :: ps, c :: cs => if canonC p = canonC c then matchCi ps cs else none

theorem matchCi_some_length {p s r} (h : matchCi p s = some r) :
    s.length = p.length + r.length := by
  induction p generalizing s with
  | nil =>
    simp only [matchCi, Option.some.injEq] at h
    subst h
    simp
  | cons a ps ih =>
    match s with
    | [] => simp [matchCi] at h
    | c :: cs =>
      unfold matchCi at h
      split at h
      · have := ih h
        simp only [List.length_cons]
        omega
      · simp at h

/-- `[^\]]*\]`: split at the first `]`; `none` when there is none
(in which case the optional bracket group cannot match). -/
def bracketSplit : List Char → Option (List Char × List Char)
  | [] => none
  | c :: t =>
    if c = ']' then some ([], t)
    else
      match bracketSplit t with
      | some (u, r) => some (c :: u, r)
      | none => none

/-- The word the compressor's header regex looks for. -/
def konWord : List Char := "Konuşmacı".data

/-- `(?:👤\s*)?`: the optional person icon with trailing whitespace. -/
def dropIcon (s : List Char) : List Char :=
  match s with
  | c :: t => if c = '👤' then t.dropWhile isWsC else s
  | [] => s

/-!
`/^(?:👤\s*)?Konuşmacı\s*(\d+)(?:\s*\[([^\]]*)\])?:\s*(.*)$/i`
(TranscriptionPanel.tsx line 490, PDFExport.tsx line 165).

Determinism notes: `\d+` is greedy and nothing after it can start with a
digit, so it takes the maximal digit run; `[^\]]*` runs to the first `]`;
if the optional bracket group matches but is not followed by `:`, the
skip-the-group alternative would put `:` on whitespace or `[`, so the
whole match fails; the `(.*)$` tail requires a terminator-free rest. -/
def matchSpeakerHeader (t : List Char) :
    Option (List Char × Option (List Char) × List Char) :=
  match matchCi konWord (dropIcon t) with
  | none => none
  | some r1 =>
    let r2 := r1.dropWhile isWsC
    let digits := r2.takeWhile Char.isDigit
    if digits.isEmpty then none
    else
      let r3 := r2.dropWhile Char.isDigit
      match r3.dropWhile isWsC with
      | '[' :: r5 =>
        match bracketSplit r5 with
        | some (tc, r6) =>
          match r6 with
          | ':' :: r7 =>
            let body := r7.dropWhile isWsC
            if termFree body then some (digits, some tc, body) else none
          | _ => none
        | none =>
          match r3 with
          | ':' :: r7 =>
            let body := r7.dropWhile isWsC
            if termFree body then some (digits, none, body) else none
          | _ => none
      | _ =>
        match r3 with
        | ':' :: r7 =>
          let body := r7.dropWhile isWsC
          if termFree body then some (digits, none, body) else none
        | _ => none

/-- `/^\[(\d{1,2}:\d{2})\]\s*(.*)$/` (the standalone continuation line):
returns the captured `d{1,2}:\d{2}` group and the `(.*)` tail. -/
def matchContinuation (t : List Char) : Option (List Char × List Char) :=
  match t with
  | '[' :: r =>
    let d := r.takeWhile Char.isDigit
    if d.length = 1 || d.length = 2 then
      match r.dropWhile Char.isDigit with
      | ':' :: a :: b :: ']' :: rest =>
        if a.isDigit && b.isDigit then
          let body := rest.dropWhile isWsC
          if termFree body then some (d ++ ':' :: [a, b], body) else none
        else none
      | _ => none
    else none
  | _ => none

/-- `/^#{1,3}\s/.test(trimmed)`: 1–3 `#` characters followed by a
whitespace character. -/
def isHashWs (t : List Char) : Bool :=
  match t with
  | '#' :: c1 :: rest =>
    isWsC c1 ||
      (c1 = '#' &&
        (match rest with
         | c2 :: rest2 =>
           isWsC c2 ||
             (c2 = '#' &&
               (match rest2 with
                | c3 :: _ => isWsC c3
                | [] => false))
         | [] => false))
  | _ => false

/-- `/^📋/.test(trimmed)`. -/
def startsPCb (t : List Char) : Bool :=
  match t with
  | c :: _ => c = '📋'
  | [] => false

/-! ### The speaker-run compressor

`compressConsecutiveSpeakers` (TranscriptionPanel.tsx lines 476-537 and
PDFExport.tsx lines 151-208).  The two copies differ in exactly one
place: for a same-speaker header with empty time and empty content the
TranscriptionPanel copy pushes an empty line where the PDFExport copy
pushes nothing; `dropEmpty` selects the PDFExport behaviour. -/

def hdrPreL : List Char := "👤 Konuşmacı ".data

def bulletPreL : List Char := "  • ".data

def contPreL : List Char := "  • [".data

/-- `parts.join(' ')`. -/
def joinSp : List (List Char) → List Char
  | [] => []
  | [l] => l
  | l :: l' :: ls => l ++ ' ' :: joinSp (l' :: ls)

/-- One step of the compressor's `forEach` body: takes the carried
`lastSpeaker` and the original line, returns the pushed lines (zero or
one) and the new `lastSpeaker`. -/
def compressLineCore (dropEmpty : Bool) (last : Option (List Char))
    (orig : List Char) : List (List Char) × Option (List Char) :=
  let t := trimB orig
  if t.isEmpty then ([[]], none)
  else
    match matchSpeakerHeader t with
    | some (sid, timeRaw, body) =>
      let tr : Option (List Char) :=
        match timeRaw with
        | some u =>
          let u' := trimB u
          if u'.isEmpty then none else some u'
        | none => none
      let content := trimB body
      if last = some sid then
        let parts : List (List Char) :=
          (match tr with
           | some u => [('[' :: u ++ [']'])]
           | none => []) ++
          (if content.isEmpty then [] else [content])
        if parts.isEmpty then ((if dropEmpty then [] else [[]]), last)
        else ([bulletPreL ++ joinSp parts], last)
      else
        let timeSeg : List Char :=
          match tr with
          | some u => ' ' :: '[' :: u ++ [']']
          | none => []
        let pre := hdrPreL ++ sid ++ timeSeg ++ [':']
        let line := if content.isEmpty then pre else pre ++ ' ' :: content
        ([trimB line], some sid)
    | none =>
      let last2 := if startsPCb t || isHashWs t then none else last
      match matchContinuation t with
      | some (ts, body) =>
        if last2.isSome then
          let content := trimB body
          ([contPreL ++ ts ++ [']'] ++
            (if content.isEmpty then [] else ' ' :: content)], last2)
        else ([orig], last2)
      | none => ([orig], last2)

/-- The `forEach` over all lines. -/
def compressLines (dropEmpty : Bool) : Option (List Char) → List (List Char) →
    List (List Char)
  | _, [] => []
  | last, l :: ls =>
    let p := compressLineCore dropEmpty last l
    p.1 ++ compressLines dropEmpty p.2 ls

/-! ### The compressor's post-pass -/

/-- Emit a pending run of `n` newline characters after the
`/\n{3,}/g → '\n\n'` replace: runs of three or more become two. -/
def emitNl (n : Nat) : List Char := List.replicate (min n 2) '\n'

/-- Single-pass worker for the newline collapse, carrying the length of
the pending newline run. -/
def collapseNlAux : Nat → List Char → List Char
  | n, [] => emitNl n
  | n, c :: t =>
    if c = '\n' then collapseNlAux (n + 1) t
    else emitNl n ++ c :: collapseNlAux 0 t

/-- `.replace(/\n{3,}/g, '\n\n')`: every maximal run of three or more
newline characters becomes exactly two. -/
def collapseNl (s : List Char) : List Char := collapseNlAux 0 s

/-- Split a whitespace run at its last `'\n'`: `w = u ++ '\n' :: v` with
`v` newline-free. -/
def lastNlSplit : List Char → Option (List Char × List Char)
  | [] => none
  | c :: t =>
    match lastNlSplit t with
    | some (u, v) => some (c :: u, v)
    | none => if c = '\n' then some ([], t) else none

/-- One attempt of `/^\s*•\s*$/m` at a line-start position (the string
is matched from this position on): leading `\s*` must run exactly to a
`•`; the trailing `\s*` is greedy and backtracks to the last position
where `$` holds (end of input, or just before a `'\n'` inside the
consumed run).  On success returns the last character of the matched text
(used to decide whether the position after the match is again a line
start) and the rest of the string. -/
def bulletArm (s : List Char) : Option (Char × List Char) :=
  match s.dropWhile isWsC with
  | '•' :: t =>
    if (t.dropWhile isWsC).isEmpty then some ('•', [])
    else
      match lastNlSplit (t.takeWhile isWsC) with
      | some (u, v) => some (u.getLastD '•', '\n' :: (v ++ t.dropWhile isWsC))
      | none => none
  | _ => none

/-- `.replace(/^\s*•\s*$/gm, '')`, fuelled (every `bulletArm` match
consumes at least one character, so `fuel = length` suffices): scan the
string; at every line-start position try `bulletArm`; on a match drop the
matched text and continue after it. -/
def brAuxF : Nat → Bool → List Char → List Char
  | 0, _, s => s
  | _ + 1, _, [] => []
  | fuel + 1, atStart, c :: t =>
    if atStart then
      match bulletArm (c :: t) with
      | some (lc, rest) => brAuxF fuel (lc = '\n') rest
      | none => c :: brAuxF fuel (c = '\n') t
    else c :: brAuxF fuel (c = '\n') t

/-- The bullet-marker-line replace on a whole string. -/
def bulletRemove (s : List Char) : List Char := brAuxF s.length true s

/-- The whole post-pass:
`.join('\n').replace(/\n{3,}/g,'\n\n').replace(/^\s*•\s*$/gm,'').trimEnd()`
applied after the line scan. -/
def postPass (s : List Char) : List Char :=
  trimEndL (bulletRemove (collapseNl s))

/-- `compressConsecutiveSpeakers`, parameterised by which copy
(`dropEmpty = true` is the PDFExport copy). -/
def compressCoreStr (dropEmpty : Bool) (text : String) : String :=
  ⟨postPass (joinNl (compressLines dropEmpty none (splitNl text.data)))⟩

/-- `compressConsecutiveSpeakers` from TranscriptionPanel.tsx. -/
def compressConsecutiveSpeakers (text : String) : String :=
  compressCoreStr false text

/-- `compressConsecutiveSpeakers` from PDFExport.tsx. -/
def pdfCompressConsecutiveSpeakers (text : String) : String :=
  compressCoreStr true text

/-- `normalizeGeminiTimestamps` (TranscriptionPanel.tsx lines 539-551):
the timestamp rewrite followed by the speaker-run compression; the
falsy-guard returns empty input unchanged. -/
def normalizeGeminiTimestamps (text : String) : String :=
  if text = "" then text
  else compressConsecutiveSpeakers ⟨tsScan text.data⟩

/-! ### Global replaces used by the markdown stripper and the preview's
pre-sanitisation -/

/-- `s = pre ++ d ++ rest` at the first occurrence of `d`. -/
def findDelim (d : List Char) : List Char → Option (List Char × List Char)
  | [] => if d.isEmpty then some ([], []) else none
  | c :: t =>
    if d.isPrefixOf (c :: t) then some ([], (c :: t).drop d.length)
    else
      match findDelim d t with
      | some (pre, rest) => some (c :: pre, rest)
      | none => none

/-- Like `findDelim` but fails at the first line terminator before the
occurrence: a lazy `(.*?)` group cannot span a line terminator. -/
def findClose (d : List Char) : List Char → Option (List Char × List Char)
  | [] => none
  | c :: t =>
    if d.isPrefixOf (c :: t) then some ([], (c :: t).drop d.length)
    else if isTermC c then none
    else
      match findClose d t with
      | some (content, rest) => some (c :: content, rest)
      | none => none

/-- Split at the first line terminator. -/
def splitFirstTerm : List Char → Option (List Char × Char × List Char)
  | [] => none
  | c :: t =>
    if isTermC c then some ([], c, t)
    else
      match splitFirstTerm t with
      | some (seg, tc, rest) => some (c :: seg, tc, rest)
      | none => none

/-!
`.replace(/d(.*?)d/g, '$1')` for a fixed delimiter `d` (used with `***`,
`**`, `*` and `__`).  If the leftmost occurrence of `d` has no closing
occurrence before the next line terminator, no match can start before
that terminator either (a later closing would have served the earlier
opening), so the scan resumes after the terminator. -/
def replacePairF (d : List Char) : Nat → List Char → List Char
  | 0, s => s
  | fuel + 1, s =>
    match findDelim d s with
    | none => s
    | some (pre, rest) =>
      match findClose d rest with
      | some (content, rest2) => pre ++ content ++ replacePairF d fuel rest2
      | none =>
        match splitFirstTerm rest with
        | some (seg, tc, rest2) => pre ++ d ++ seg ++ tc :: replacePairF d fuel rest2
        | none => s

def replacePair (d : List Char) (s : List Char) : List Char :=
  replacePairF d s.length s

def tickC : Char := Char.ofNat 0x60

/-!
`.replace(/`{1,3}(.*?)`{1,3}/g, '$1')` with a variable-length delimiter.
At a backtick run of length `R`: for `R ≥ 4` the greedy opening takes 3,
the lazy content is empty and the greedy closing takes `min 3 (R-3)`;
for `2 ≤ R ≤ 3` with no later backtick in the line the opening backtracks
to `R-1` and closes on the run's last backtick (deleting the run); for
`R = 1` with no later backtick in the line there is no match before the
next line terminator. -/
def replaceTicksF : Nat → List Char → List Char
  | 0, s => s
  | fuel + 1, s =>
    match findDelim [tickC] s with
    | none => s
    | some (pre, rest) =>
      let r2 := rest.takeWhile (fun c => c = tickC)
      let afterRun := rest.dropWhile (fun c => c = tickC)
      if 3 ≤ r2.length then
        pre ++ replaceTicksF fuel
          (List.replicate (r2.length - 2 - min 3 (r2.length - 2)) tickC ++ afterRun)
      else
        match findClose [tickC] afterRun with
        | some (content, afterCl) =>
          pre ++ content ++ replaceTicksF fuel
            (afterCl.drop (min 2 (afterCl.takeWhile (fun c => c = tickC)).length))
        | none =>
          if 1 ≤ r2.length then pre ++ replaceTicksF fuel afterRun
          else
            match splitFirstTerm afterRun with
            | some (seg, tc, rest2) =>
              pre ++ tickC :: seg ++ tc :: replaceTicksF fuel rest2
            | none => s

def replaceTicks (s : List Char) : List Char := replaceTicksF s.length s

/-- `.replace(/\r\n/g, '\n')`. -/
def replaceCrLf : List Char → List Char
  | [] => []
  | [c] => [c]
  | c :: d :: t =>
    if c = '\r' && d = '\n' then '\n' :: replaceCrLf t
    else c :: replaceCrLf (d :: t)

/-! ### `stripMarkdownTokens` (TranscriptionPanel.tsx lines 843-854,
PDFExport.tsx lines 131-143) -/

/-- `.replace(/\*/g, '')`. -/
def removeStars (s : List Char) : List Char := s.filter (fun c => c ≠ '*')

/-- Worker for `.replace(/\s{2,}/g, ' ')`, carrying the pending
whitespace run as its first character plus a saw-more flag. -/
def collapseWsAux : Option (Char × Bool) → List Char → List Char
  | none, [] => []
  | some (w, more), [] => if more then [' '] else [w]
  | none, c :: t =>
    if isWsC c then collapseWsAux (some (c, false)) t
    else c :: collapseWsAux none t
  | some (w, more), c :: t =>
    if isWsC c then collapseWsAux (some (w, true)) t
    else (if more then [' '] else [w]) ++ c :: collapseWsAux none t

/-- `.replace(/\s{2,}/g, ' ')`: every maximal whitespace run of length
two or more becomes a single space. -/
def collapseWs (s : List Char) : List Char := collapseWsAux none s

def star1L : List Char := ['*']

def star2L : List Char := ['*', '*']

def star3L : List Char := ['*', '*', '*']

def usc2L : List Char := ['_', '_']

/-- `stripMarkdownTokens` on a character list. -/
def stripLCore (v : List Char) : List Char :=
  trimB (collapseWs (removeStars
    (replacePair star1L (replacePair star2L (replacePair star3L v)))))

/-- `stripMarkdownTokens` (identical in both components). -/
def stripMarkdownTokens (value : String) : String := ⟨stripLCore value.data⟩

/-- The preview's pre-sanitisation (TranscriptionPanel.tsx lines 863-868):
`\r\n → \n`, then unwrap `***`, `**`, `__` and backtick spans. -/
def sanitizeAi (s : List Char) : List Char :=
  replaceTicks (replacePair usc2L (replacePair star2L (replacePair star3L
    (replaceCrLf s))))

/-! ### The misspelling unifier
`.replace(/Konusmaci|Konusmacı|Konuşmaci/gi, 'Konuşmacı')` -/

def missp1 : List Char := "Konusmaci".data

def missp2 : List Char := "Konusmacı".data

def missp3 : List Char := "Konuşmaci".data

def unifyKonF : Nat → List Char → List Char
  | 0, s => s
  | _ + 1, [] => []
  | fuel + 1, c :: t =>
    match matchCi missp1 (c :: t) with
    | some r => konWord ++ unifyKonF fuel r
    | none =>
      match matchCi missp2 (c :: t) with
      | some r => konWord ++ unifyKonF fuel r
      | none =>
        match matchCi missp3 (c :: t) with
        | some r => konWord ++ unifyKonF fuel r
        | none => c :: unifyKonF fuel t

def unifyKon (s : List Char) : List Char := unifyKonF s.length s

/-! ### The per-line classifiers of the block parser
(`renderAiImprovedPreview`, TranscriptionPanel.tsx lines 862-985, and
`parseTranscriptionBlocks`, PDFExport.tsx lines 210-309; the line
classifiers of the two are character-for-character identical). -/

/-- `/^[-_*]{3,}$/.test(line.replace(/\s+/g, ''))` — only checked by the
TranscriptionPanel copy. -/
def isSeparator (line : List Char) : Bool :=
  let cleaned := line.filter (fun c => !isWsC c)
  3 ≤ cleaned.length && cleaned.all (fun c => c = '-' || c = '_' || c = '*')

def buWord : List Char := "bu".data

def transWord : List Char := "transkripsiyon".data

def metniWord : List Char := "metni".data

/-- `/^bu\s+transkripsiyon\s+metni/i.test(line)`. -/
def disclaimerTest (line : List Char) : Bool :=
  match matchCi buWord line with
  | some r =>
    if (r.takeWhile isWsC).isEmpty then false
    else
      match matchCi transWord (r.dropWhile isWsC) with
      | some r2 =>
        if (r2.takeWhile isWsC).isEmpty then false
        else (matchCi metniWord (r2.dropWhile isWsC)).isSome
      | none => false
  | none => false

/-- One character class of the speaker-word alternation
`(Kon[uşu]mac[ıi]|Konusmaci)`: note the first branch is an *eight*
character word — it does not match the correct spelling `Konuşmacı`. -/
def clsEq (cls : List Char) (c : Char) : Bool :=
  cls.any (fun p => canonC p = canonC c)

def matchClasses : List (List Char) → List Char → Option (List Char)
  | [], s => some s
  | _ :: _, [] => none
  | cls :: ps, c :: cs => if clsEq cls c then matchClasses ps cs else none

def konBranch1 : List (List Char) :=
  [['K'], ['o'], ['n'], ['u', 'ş'], ['m'], ['a'], ['c'], ['ı', 'i']]

/-- `(?:Kon[uşu]mac[ıi]|Konusmaci)` with `/i`, first alternative first. -/
def matchKonAlt (s : List Char) : Option (List Char) :=
  match matchClasses konBranch1 s with
  | some r => some r
  | none => matchCi missp1 s

/--
`/^\*{0,2}(Kon[uşu]mac[ıi]|Konusmaci)\s*(\d+)\*{0,2}\s*(?:\[([^\]]*)\])?\s*:\s*(.*)$/i`
(the `speakerPattern`).  A star run longer than two at either position
makes every backtracking alternative fail (the continuation can never
start with `*`). -/
def speakerPat (s : List Char) : Option (List Char × Option (List Char) × List Char) :=
  if 2 < (s.takeWhile (fun c => c = '*')).length then none
  else
    match matchKonAlt (s.dropWhile (fun c => c = '*')) with
    | none => none
    | some r1 =>
      let r2 := r1.dropWhile isWsC
      let digits := r2.takeWhile Char.isDigit
      if digits.isEmpty then none
      else
        let r3 := r2.dropWhile Char.isDigit
        if 2 < (r3.takeWhile (fun c => c = '*')).length then none
        else
          match ((r3.dropWhile (fun c => c = '*')).dropWhile isWsC) with
          | '[' :: r5 =>
            match bracketSplit r5 with
            | some (tc, r6) =>
              match r6.dropWhile isWsC with
              | ':' :: r7 =>
                let body := r7.dropWhile isWsC
                if termFree body then some (digits, some tc, body) else none
              | _ => none
            | none => none
          | ':' :: r7 =>
            let body := r7.dropWhile isWsC
            if termFree body then some (digits, none, body) else none
          | _ => none

/-- `/^👤/`. -/
def startsPerson (line : List Char) : Bool :=
  match line with
  | c :: _ => c = '👤'
  | [] => false

/-- The lazy scan of `/^👤\s*(.*?)\s*(?:\[([^\]]*)\])?\s*:\s*(.*)$/`:
`acc` is the reversed `(.*?)` group so far; at each length the engine
first tries to finish the match (whitespace, then either the optional
bracket group followed by `:` or `:` directly), and grows the lazy group
by one (non-terminator) character on failure. -/
def personIconAux : List Char → List Char → Option (List Char × Option (List Char) × List Char)
  | acc, s =>
    match
      (match s.dropWhile isWsC with
       | ':' :: r =>
         let body := r.dropWhile isWsC
         if termFree body then some (acc.reverse, (none : Option (List Char)), body)
         else none
       | '[' :: r =>
         match bracketSplit r with
         | some (tc, r2) =>
           match r2.dropWhile isWsC with
           | ':' :: r3 =>
             let body := r3.dropWhile isWsC
             if termFree body then some (acc.reverse, some tc, body) else none
           | _ => none
         | none => none
       | _ => none)
    with
    | some res => some res
    | none =>
      match s with
      | c :: t => if isTermC c then none else personIconAux (c :: acc) t
      | [] => none

/-- The whole `👤` branch: the line starts with `👤`; when the regex
fails the code falls back to `speakerRaw = 'Konuşmacı'`, no time and
empty content. -/
def personIcon (line : List Char) : List Char × Option (List Char) × List Char :=
  match line with
  | _ :: t =>
    match personIconAux [] (t.dropWhile isWsC) with
    | some res => res
    | none => (konWord, none, [])
  | [] => (konWord, none, [])

/-- `/^[-•]\s+/.test(line)`. -/
def bulletTest (line : List Char) : Bool :=
  match line with
  | c :: d :: _ => (c = '-' || c = '•') && isWsC d
  | _ => false

/-- `line.replace(/^[-•]\s*/, '')`. -/
def bulletStripMarker (line : List Char) : List Char :=
  match line with
  | c :: t => if c = '-' || c = '•' then t.dropWhile isWsC else line
  | [] => line

/-- `\s*\*{2,}$`: whitespace then two or more stars, exactly to the end. -/
def looseTail (s : List Char) : Bool :=
  let r := s.dropWhile isWsC
  2 ≤ r.length && r.all (fun c => c = '*')

/-- Lazy `(.+?)` of the loose-heading pattern: grow the content one
non-terminator character at a time; at each length accept if the rest is
empty (`$`) or is an optional `\s*\*{2,}$` tail. -/
def looseIter : List Char → List Char → Option (List Char)
  | _, [] => none
  | acc, c :: t =>
    if isTermC c then none
    else if t.isEmpty || looseTail t then some (c :: acc).reverse
    else looseIter (c :: acc) t

/-- Backtracking of the `\s*` between the opening stars and the content:
longest whitespace first, then move its characters into the content one
at a time (the first argument is the still-unmoved run, reversed). -/
def looseAfterStarsR : List Char → List Char → Option (List Char)
  | wR, cs =>
    match looseIter [] cs with
    | some t => some t
    | none =>
      match wR with
      | [] => none
      | x :: wR2 => looseAfterStarsR wR2 (x :: cs)

/-- Backtracking of the greedy `\*{2,}` opening: opening size from the
whole star run down to 2, returning stars to the content side. -/
def looseDescend : Nat → List Char → Option (List Char)
  | o, tail =>
    match looseAfterStarsR (tail.takeWhile isWsC).reverse (tail.dropWhile isWsC) with
    | some t => some t
    | none =>
      match o with
      | n + 3 => looseDescend (n + 2) ('*' :: tail)
      | _ => none

/-- `/^\*{2,}\s*(.+?)(?:\s*\*{2,})?$/` (the `looseHeading` pattern);
returns the raw captured group. -/
def looseHeading (line : List Char) : Option (List Char) :=
  if 2 ≤ (line.takeWhile (fun c => c = '*')).length then
    looseDescend (line.takeWhile (fun c => c = '*')).length
      (line.dropWhile (fun c => c = '*'))
  else none

/-- `/^#{1,3}\s*(.*)$/`: greedy `#` run capped at three, then the rest
(which may itself start with `#`); fails only when the tail contains a
line terminator. -/
def atxPat (line : List Char) : Option (List Char) :=
  match line with
  | '#' :: t =>
    let body := (line.drop (min 3 (1 + (t.takeWhile (fun c => c = '#')).length))).dropWhile isWsC
    if termFree body then some body else none
  | _ => false |> fun _ => none

/-- `/^📋/`. -/
def dropIcoWs (line : List Char) : List Char :=
  match line with
  | c :: t => if c = '📋' then t.dropWhile isWsC else line
  | [] => line

/-- `text.split(':')`. -/
def splitColon : List Char → List (List Char)
  | [] => [[]]
  | c :: t =>
    if c = ':' then [] :: splitColon t
    else
      match splitColon t with
      | [] => [[c]]
      | l :: ls => (c :: l) :: ls

/-- `parts.join(':')`. -/
def joinColon : List (List Char) → List Char
  | [] => []
  | [l] => l
  | l :: l' :: ls => l ++ ':' :: joinColon (l' :: ls)

/-- The literal `'başlık'` the code compares against (dotless `ı`). -/
def basLikWord : List Char := "başlık".data

/-- The `📋` structural-heading branch: strip the icon and surrounding
whitespace, split on `:`; with a colon the pre-colon text becomes the
detail unless its `toLowerCase` image is exactly `'başlık'`. -/
def icoParse (line : List Char) : List Char × Option (List Char) :=
  match splitColon (trimB (dropIcoWs line)) with
  | [] => ([], none)
  | rawTitle :: rest =>
    if rest.isEmpty then (stripLCore rawTitle, none)
    else
      let dRaw := trimB rawTitle
      (stripLCore (joinColon rest),
        if dRaw.isEmpty then none
        else if dRaw.map jsLowerC = basLikWord then none
        else some (stripLCore dRaw))

/--
`/^((?:Kon[uşu]mac[ıi]|Konusmaci)\s*\d+)\s*\[([^\]]*)\]\s*:\s*(.*)$/i`
(the `fallbackSpeakerMatch`; its every match is also a `speakerPat`
match, so the branch is unreachable — embedded for fidelity). -/
def fallbackPat (s : List Char) : Option (List Char × List Char × List Char) :=
  match matchKonAlt s with
  | none => none
  | some r1 =>
    let r2 := r1.dropWhile isWsC
    let digits := r2.takeWhile Char.isDigit
    if digits.isEmpty then none
    else
      let r3 := r2.dropWhile Char.isDigit
      match r3.dropWhile isWsC with
      | '[' :: r4 =>
        match bracketSplit r4 with
        | some (tc, r5) =>
          match r5.dropWhile isWsC with
          | ':' :: r6 =>
            let body := r6.dropWhile isWsC
            if termFree body then some (s.take (s.length - r3.length), tc, body)
            else none
          | _ => none
        | none => none
      | _ => none

/-! ### The two block parsers -/

inductive CommonClass where
  | disclaimer : CommonClass
  | speakerC (speaker : String) (time : Option String) (content : String) : CommonClass
  | bulletItem (item : Option String) : CommonClass
  | headingLoose (title : Option String) : CommonClass
  | headingAtx (title : Option String) : CommonClass
  | headingIco (title : String) (detail : Option String) : CommonClass
  | para (content : String) : CommonClass
deriving DecidableEq

def mkS (l : List Char) : String := ⟨l⟩

/-- `timeRaw?.trim()` then `timeRaw ? strip(timeRaw) : undefined`. -/
def timeField (timeRaw : Option (List Char)) : Option String :=
  match timeRaw with
  | some u => if (trimB u).isEmpty then none else some ⟨stripLCore (trimB u)⟩
  | none => none

/-- `strip((contentRaw ?? '').trim())`. -/
def contentField (body : List Char) : String := ⟨stripLCore (trimB body)⟩

def konLabel (digits : List Char) : String := ⟨"Konuşmacı ".data ++ digits⟩

/-- The shared classifier chain for one trimmed, non-blank line (the
TranscriptionPanel copy additionally checks the decorative-separator rule
before this chain; the blank-line behaviour also differs and is handled
by the callers). -/
def classifyCommon (line : List Char) : CommonClass :=
  if disclaimerTest line then .disclaimer
  else
    match speakerPat line with
    | some (digits, timeRaw, body) =>
      .speakerC (konLabel digits) (timeField timeRaw) (contentField body)
    | none =>
      if startsPerson line then
        .speakerC ⟨unifyKon (stripLCore (personIcon line).1)⟩
          (timeField (personIcon line).2.1) (contentField (personIcon line).2.2)
      else if bulletTest line then
        .bulletItem (if (stripLCore (bulletStripMarker line)).isEmpty then none
          else some ⟨stripLCore (bulletStripMarker line)⟩)
      else
        match looseHeading line with
        | some g1 =>
          .headingLoose (if (stripLCore g1).isEmpty then none else some ⟨stripLCore g1⟩)
        | none =>
          match atxPat line with
          | some body =>
            .headingAtx (if (stripLCore body).isEmpty then none else some ⟨stripLCore body⟩)
          | none =>
            if startsPCb line then
              .headingIco ⟨(icoParse line).1⟩ ((icoParse line).2.map mkS)
            else
              match fallbackPat line with
              | some (label, tc, body) =>
                .speakerC ⟨unifyKon (stripLCore label)⟩
                  (if (trimB tc).isEmpty then none else some ⟨stripLCore tc⟩)
                  ⟨stripLCore (trimB body)⟩
              | none => .para ⟨stripLCore line⟩

inductive AiPreviewNode where
  | headingN (title : String) (detail : Option String) : AiPreviewNode
  | bulletN (items : List String) : AiPreviewNode
  | speakerN (speaker : String) (time : Option String) (content : String) : AiPreviewNode
  | paragraphN (content : String) : AiPreviewNode
deriving DecidableEq

inductive PdfBlock where
  | headingB (title : String) (detail : Option String) : PdfBlock
  | speakerB (speaker : String) (time : Option String) (content : String) : PdfBlock
  | bulletB (content : String) : PdfBlock
  | paragraphB (content : String) : PdfBlock
deriving DecidableEq

/-- `flushBullets`. -/
def flushB (buf : List String) : List AiPreviewNode :=
  if buf.isEmpty then [] else [.bulletN buf]

/-- The `forEach` of `renderAiImprovedPreview` over sanitised lines,
carrying the pending bullet buffer. -/
def tpStepList : List (List Char) → List String → List AiPreviewNode
  | [], buf => flushB buf
  | l :: ls, buf =>
    if (trimB l).isEmpty then flushB buf ++ tpStepList ls []
    else if isSeparator (trimB l) then flushB buf ++ tpStepList ls []
    else
      match classifyCommon (trimB l) with
      | .disclaimer => flushB buf ++ tpStepList ls []
      | .speakerC sp t c => flushB buf ++ .speakerN sp t c :: tpStepList ls []
      | .bulletItem (some it) => tpStepList ls (buf ++ [it])
      | .bulletItem none => tpStepList ls buf
      | .headingLoose (some ti) => flushB buf ++ .headingN ti none :: tpStepList ls []
      | .headingLoose none => flushB buf ++ tpStepList ls []
      | .headingAtx (some ti) => flushB buf ++ .headingN ti none :: tpStepList ls []
      | .headingAtx none => flushB buf ++ tpStepList ls []
      | .headingIco ti d => flushB buf ++ .headingN ti d :: tpStepList ls []
      | .para c => flushB buf ++ .paragraphN c :: tpStepList ls []

/-- The node list `renderAiImprovedPreview` computes and renders
(TranscriptionPanel.tsx lines 862-985). -/
def renderAiImprovedPreview (text : String) : List AiPreviewNode :=
  tpStepList (splitNl (sanitizeAi (compressConsecutiveSpeakers text).data)) []

/-- The `forEach` of `parseTranscriptionBlocks` over normalised lines:
no separator rule, an empty `Paragraph` for every blank line, and
individual bullet blocks instead of a buffered list. -/
def parseBlocksAux : List (List Char) → List PdfBlock
  | [] => []
  | l :: ls =>
    if (trimB l).isEmpty then .paragraphB "" :: parseBlocksAux ls
    else
      match classifyCommon (trimB l) with
      | .disclaimer => parseBlocksAux ls
      | .speakerC sp t c => .speakerB sp t c :: parseBlocksAux ls
      | .bulletItem (some it) => .bulletB it :: parseBlocksAux ls
      | .bulletItem none => parseBlocksAux ls
      | .headingLoose (some ti) => .headingB ti none :: parseBlocksAux ls
      | .headingLoose none => parseBlocksAux ls
      | .headingAtx (some ti) => .headingB ti none :: parseBlocksAux ls
      | .headingAtx none => parseBlocksAux ls
      | .headingIco ti d => .headingB ti d :: parseBlocksAux ls
      | .para c => .paragraphB c :: parseBlocksAux ls

/-- `parseTranscriptionBlocks` (PDFExport.tsx lines 210-309). -/
def parseTranscriptionBlocks (text : String) : List PdfBlock :=
  if text = "" then []
  else parseBlocksAux (splitNl (pdfCompressConsecutiveSpeakers ⟨replaceCrLf text.data⟩).data)

/-! ### The speaker counter
(`countSpeakersFromTranscription`, TranscriptionPanel.tsx lines 290-307) -/

/-- `[...text.matchAll(/Konuşmacı\s*(\d+)/gi)].map(m => m[1])`. -/
def scanModernF : Nat → List Char → List (List Char)
  | 0, _ => []
  | _ + 1, [] => []
  | fuel + 1, c :: t =>
    match matchCi konWord (c :: t) with
    | some r =>
      if ((r.dropWhile isWsC).takeWhile Char.isDigit).isEmpty then scanModernF fuel t
      else
        (r.dropWhile isWsC).takeWhile Char.isDigit ::
          scanModernF fuel ((r.dropWhile isWsC).dropWhile Char.isDigit)
    | none => scanModernF fuel t

def modernIds (s : List Char) : List (List Char) := scanModernF s.length s

def isAsciiLetter (c : Char) : Bool :=
  ('A' ≤ c && c ≤ 'Z') || ('a' ≤ c && c ≤ 'z')

def kisisiWord : List Char := "Kişisi".data

/-- `[...text.matchAll(/([A-Z])\s*Kişisi/gi)].map(m => m[1].toUpperCase())`. -/
def scanLegacyF : Nat → List Char → List Char
  | 0, _ => []
  | _ + 1, [] => []
  | fuel + 1, c :: t =>
    if isAsciiLetter c then
      match matchCi kisisiWord (t.dropWhile isWsC) with
      | some r2 => jsUpperC c :: scanLegacyF fuel r2
      | none => scanLegacyF fuel t
    else scanLegacyF fuel t

def legacyLetters (s : List Char) : List Char := scanLegacyF s.length s

/-- `countSpeakersFromTranscription`. -/
def countSpeakersFromTranscription (transcription : String) : Nat :=
  if (modernIds transcription.data).isEmpty then
    if (legacyLetters transcription.data).isEmpty then 1
    else max (legacyLetters transcription.data).dedup.length 1
  else max (modernIds transcription.data).dedup.length 1

/-! ## Lemmas about the timestamp rewrite -/

theorem tsScanF_nil (f : Nat) : tsScanF f [] = [] := by
  cases f <;> rfl

theorem tsScanF_cons_ne {c : Char} (f : Nat) (t : List Char) (hc : c ≠ '[') :
    tsScanF (f + 1) (c :: t) = c :: tsScanF f t := by
  simp [tsScanF, hc]

theorem tsScanF_cons_some {t m sec rest} (f : Nat) (h : tryTs t = some (m, sec, rest)) :
    tsScanF (f + 1) ('[' :: t) =
      '[' :: (padMin m ++ ':' :: sec ++ ']' :: tsScanF f rest) := by
  simp [tsScanF, h]

theorem tsScanF_cons_none {t} (f : Nat) (h : tryTs t = none) :
    tsScanF (f + 1) ('[' :: t) = '[' :: tsScanF f t := by
  simp [tsScanF, h]

theorem tsScanF_fuelInv : ∀ f g s, s.length ≤ f → s.length ≤ g →
    tsScanF f s = tsScanF g s := by
  intro f
  induction f with
  | zero =>
    intro g s hf _
    have : s = [] := List.length_eq_zero.mp (Nat.le_zero.mp hf)
    subst this
    rw [tsScanF_nil, tsScanF_nil]
  | succ f ih =>
    intro g s hf hg
    match s with
    | [] => rw [tsScanF_nil, tsScanF_nil]
    | c :: t =>
      obtain ⟨g', rfl⟩ : ∃ g', g = g' + 1 := by
        cases g
        · simp at hg
        · exact ⟨_, rfl⟩
      simp only [List.length_cons] at hf hg
      by_cases hc : c = '['
      · subst hc
        cases htry : tryTs t with
        | some x =>
          obtain ⟨m, sec, rest⟩ := x
          have hrest := tryTs_some_length htry
          rw [tsScanF_cons_some f htry, tsScanF_cons_some g' htry,
            ih g' rest (by omega) (by omega)]
        | none =>
          rw [tsScanF_cons_none f htry, tsScanF_cons_none g' htry,
            ih g' t (by omega) (by omega)]
      · rw [tsScanF_cons_ne f t hc, tsScanF_cons_ne g' t hc,
          ih g' t (by omega) (by omega)]

theorem tsScanF_id_of_noTs : ∀ f s, hasTs s = false → tsScanF f s = s := by
  intro f
  induction f with
  | zero => intro s _; rfl
  | succ f ih =>
    intro s hs
    match s with
    | [] => rw [tsScanF_nil]
    | c :: t =>
      unfold hasTs at hs
      simp only [Bool.or_eq_false_iff, Bool.and_eq_false_iff] at hs
      by_cases hc : c = '['
      · subst hc
        have htry : tryTs t = none := by
          rcases hs.1 with h | h
          · simp at h
          · exact Option.not_isSome_iff_eq_none.mp (by simp [h])
        rw [tsScanF_cons_none f htry, ih t hs.2]
      · rw [tsScanF_cons_ne f t hc, ih t hs.2]

theorem tsScanF_append_noLb : ∀ u r f, (∀ c ∈ u, c ≠ '[') →
    u.length + r.length ≤ f →
    tsScanF f (u ++ r) = u ++ tsScanF (f - u.length) r := by
  intro u
  induction u with
  | nil => intro r f _ _; simp
  | cons c u' ih =>
    intro r f hu hf
    simp only [List.length_cons] at hf
    obtain ⟨f', rfl⟩ : ∃ f', f = f' + 1 := by
      cases f
      · omega
      · exact ⟨_, rfl⟩
    rw [List.cons_append, tsScanF_cons_ne f' _ (hu c (List.mem_cons_self c u'))]
    rw [ih r f' (fun d hd => hu d (List.mem_cons_of_mem c hd)) (by omega)]
    have hfe : f' + 1 - (c :: u').length = f' - u'.length := by
      simp only [List.length_cons]
      omega
    rw [hfe]
    simp

theorem tryTs_canonical {m sec post : List Char}
    (hm : m.all Char.isDigit) (hml : m.length = 1 ∨ m.length = 2)
    (hs : sec.all Char.isDigit) (hsl : sec.length = 2) :
    tryTs (m ++ '.' :: (sec ++ ']' :: post)) = some (m, sec, post) := by
  obtain ⟨d, e, rfl⟩ : ∃ d e, sec = [d, e] := by
    match sec with
    | [d, e] => exact ⟨d, e, rfl⟩
    | [] => simp at hsl
    | [d] => simp at hsl
    | _ :: _ :: _ :: _ => simp at hsl
  simp only [List.all_cons, List.all_nil, Bool.and_eq_true, and_true] at hs
  rcases hml with h1 | h2
  · obtain ⟨a, rfl⟩ : ∃ a, m = [a] := by
      match m with
      | [a] => exact ⟨a, rfl⟩
      | [] => simp at h1
      | _ :: _ :: _ => simp at h1
    simp only [List.all_cons, List.all_nil, Bool.and_eq_true, and_true] at hm
    match post with
    | [] =>
      simp [tryTs, hm, hs.1, hs.2]
    | p :: ps =>
      have hdot : ¬('.' : Char).isDigit := by decide
      simp [tryTs, hm, hs.1, hs.2, hdot]
  · obtain ⟨a, b, rfl⟩ : ∃ a b, m = [a, b] := by
      match m with
      | [a, b] => exact ⟨a, b, rfl⟩
      | [] => simp at h2
      | [a] => simp at h2
      | _ :: _ :: _ :: _ => simp at h2
    simp only [List.all_cons, List.all_nil, Bool.and_eq_true, and_true] at hm
    simp [tryTs, hm.1, hm.2, hs.1, hs.2]

/-! ## C1: idempotence of the pipeline

The full pipeline is *not* idempotent (counterexample below: the
bullet-only-line removal of the post-pass can merge lines and leave a
three-newline run that only the *next* application collapses).  The
timestamp-rewrite stage on its own *is* idempotent; proving that is the
amended claim. -/

theorem tryTs_none_transfer6 {a b c d e f : Char} {X Y : List Char}
    (h : tryTs (a :: b :: c :: d :: e :: f :: X) = none) :
    tryTs (a :: b :: c :: d :: e :: f :: Y) = none := by
  simp only [tryTs] at h ⊢
  split at h
  · exact absurd h (by simp)
  · split at h
    · exact absurd h (by simp)
    · next h1 h2 => rw [if_neg h1, if_neg h2]

theorem tryTs_lb0 (X : List Char) : tryTs ('[' :: X) = none := by
  have hd : ('[' : Char).isDigit = false := by decide
  match X with
  | [] => rfl
  | [a] => rfl
  | [a, b] => rfl
  | [a, b, c] => rfl
  | [a, b, c, d] => simp [tryTs, hd]
  | a :: b :: c :: d :: e :: r => simp [tryTs, hd]

theorem tryTs_lb1 (a : Char) (X : List Char) : tryTs (a :: '[' :: X) = none := by
  have hd : ('[' : Char).isDigit = false := by decide
  have hdot : ('[' : Char) ≠ '.' := by decide
  match X with
  | [] => rfl
  | [b] => rfl
  | [b, c] => rfl
  | [b, c, d] => simp [tryTs, hdot]
  | b :: c :: d :: e :: r => simp [tryTs, hd, hdot]

theorem tryTs_lb2 (a b : Char) (X : List Char) : tryTs (a :: b :: '[' :: X) = none := by
  have hd : ('[' : Char).isDigit = false := by decide
  have hdot : ('[' : Char) ≠ '.' := by decide
  match X with
  | [] => rfl
  | [c] => rfl
  | [c, d] => simp [tryTs, hd, hdot]
  | c :: d :: e :: r => simp [tryTs, hd, hdot]

theorem tryTs_lb3 (a b c : Char) (X : List Char) :
    tryTs (a :: b :: c :: '[' :: X) = none := by
  have hd : ('[' : Char).isDigit = false := by decide
  match X with
  | [] => rfl
  | [d] => simp [tryTs, hd]
  | d :: e :: r => simp [tryTs, hd]

theorem tryTs_lb4 (a b c d : Char) (X : List Char) :
    tryTs (a :: b :: c :: d :: '[' :: X) = none := by
  have hd : ('[' : Char).isDigit = false := by decide
  have hcl : ('[' : Char) ≠ ']' := by decide
  match X with
  | [] => simp [tryTs, hd, hcl]
  | e :: r => simp [tryTs, hd, hcl]

theorem tryTs_none_transfer {w v t : List Char}
    (h : tryTs (w ++ '[' :: v) = none) : tryTs (w ++ '[' :: t) = none := by
  match w with
  | [] => exact tryTs_lb0 t
  | [a] => exact tryTs_lb1 a t
  | [a, b] => exact tryTs_lb2 a b t
  | [a, b, c] => exact tryTs_lb3 a b c t
  | [a, b, c, d] => exact tryTs_lb4 a b c d t
  | a :: b :: c :: d :: e :: w' =>
    cases w' with
    | nil => exact tryTs_none_transfer6 (by simpa using h)
    | cons g w'' =>
      have h' : tryTs (a :: b :: c :: d :: e :: g :: (w'' ++ '[' :: v)) = none := by
        simpa using h
      simpa using @tryTs_none_transfer6 _ _ _ _ _ _ _ (w'' ++ '[' :: t) h'

theorem mem_split_first {c : Char} {s : List Char} (h : c ∈ s) :
    ∃ w v, s = w ++ c :: v ∧ c ∉ w := by
  induction s with
  | nil => simp at h
  | cons a t ih =>
    by_cases hc : a = c
    · subst hc
      refine ⟨[], t, ?_, ?_⟩
      · simp
      · simp
    · have ht : c ∈ t := by
        rcases List.mem_cons.mp h with h1 | h1
        · exact absurd h1.symm hc
        · exact h1
      obtain ⟨w, v, hw1, hw⟩ := ih ht
      refine ⟨a :: w, v, ?_, ?_⟩
      · rw [hw1]
        simp
      · intro hmem
        rcases List.mem_cons.mp hmem with h1 | h1
        · exact hc h1.symm
        · exact hw h1

theorem tsScanF_structure : ∀ f s, (('[' ∉ s) ∧ tsScanF f s = s) ∨
    (∃ w v t, s = w ++ '[' :: v ∧ tsScanF f s = w ++ '[' :: t ∧ '[' ∉ w) := by
  intro f
  induction f with
  | zero =>
    intro s
    by_cases h : '[' ∈ s
    · obtain ⟨w, v, rfl, hw⟩ := mem_split_first h
      exact Or.inr ⟨w, v, v, rfl, rfl, hw⟩
    · exact Or.inl ⟨h, rfl⟩
  | succ f ih =>
    intro s
    match s with
    | [] => exact Or.inl ⟨by simp, tsScanF_nil _⟩
    | c :: u =>
      by_cases hc : c = '['
      · subst hc
        cases htry : tryTs u with
        | some x =>
          obtain ⟨m, sec, rest⟩ := x
          refine Or.inr ⟨[], u, padMin m ++ ':' :: sec ++ ']' :: tsScanF f rest,
            by simp, ?_, by simp⟩
          rw [tsScanF_cons_some f htry]
          simp
        | none =>
          refine Or.inr ⟨[], u, tsScanF f u, by simp, ?_, by simp⟩
          rw [tsScanF_cons_none f htry]
          simp
      · rcases ih u with ⟨hnot, heq⟩ | ⟨w, v, t, hdec, heq, hw⟩
        · refine Or.inl ⟨?_, ?_⟩
          · intro hmem
            rcases List.mem_cons.mp hmem with h1 | h1
            · exact hc h1.symm
            · exact hnot h1
          · rw [tsScanF_cons_ne f u hc, heq]
        · subst hdec
          refine Or.inr ⟨c :: w, v, t, by simp, ?_, ?_⟩
          · rw [tsScanF_cons_ne f _ hc, heq]
            simp
          · intro hmem
            rcases List.mem_cons.mp hmem with h1 | h1
            · exact hc h1.symm
            · exact hw h1

theorem tryTs_none_after_scan {f u} (h : tryTs u = none) :
    tryTs (tsScanF f u) = none := by
  rcases tsScanF_structure f u with ⟨_, heq⟩ | ⟨w, v, t, hdec, heq, _⟩
  · rw [heq]
    exact h
  · rw [heq]
    rw [hdec] at h
    exact tryTs_none_transfer h

theorem tryTs_some_shape {u m sec rest} (h : tryTs u = some (m, sec, rest)) :
    ∃ d1 d2 e1 e2, padMin m = [d1, d2] ∧ d1.isDigit = true ∧ d2.isDigit = true ∧
      sec = [e1, e2] ∧ e1.isDigit = true ∧ e2.isDigit = true := by
  unfold tryTs at h
  split at h
  · split at h
    · next hcond =>
      simp only [Bool.and_eq_true, decide_eq_true_eq] at hcond
      have h' := Option.some.inj h
      injection h' with h1 h'
      injection h' with h2 h3
      subst h1
      subst h2
      exact ⟨_, _, _, _, rfl, hcond.1.1.1.1.1, hcond.1.1.1.1.2, rfl, hcond.1.1.2, hcond.1.2⟩
    · split at h
      · next hcond =>
        simp only [Bool.and_eq_true, decide_eq_true_eq] at hcond
        have h' := Option.some.inj h
        injection h' with h1 h'
        injection h' with h2 h3
        subst h1
        subst h2
        exact ⟨_, _, _, _, rfl, by decide, hcond.1.1.1.1, rfl, hcond.1.1.2, hcond.1.2⟩
      · simp at h
  · split at h
    · next hcond =>
      simp only [Bool.and_eq_true, decide_eq_true_eq] at hcond
      have h' := Option.some.inj h
      injection h' with h1 h'
      injection h' with h2 h3
      subst h1
      subst h2
      exact ⟨_, _, _, _, rfl, by decide, hcond.1.1.1.1, rfl, hcond.1.1.2, hcond.1.2⟩
    · simp at h
  · simp at h

theorem digit_ne_dot {c : Char} (h : c.isDigit = true) : c ≠ '.' := by
  intro he
  subst he
  exact absurd h (by decide)

theorem digit_ne_lb {c : Char} (h : c.isDigit = true) : c ≠ '[' := by
  intro he
  subst he
  exact absurd h (by decide)

theorem tryTs_none_emitted {d1 d2 e1 e2 : Char} (hd2 : d2.isDigit = true)
    (Y : List Char) :
    tryTs (d1 :: d2 :: ':' :: e1 :: e2 :: ']' :: Y) = none := by
  have h1 : ¬((':' : Char) = '.') := by decide
  have h2 : ¬(d2 = '.') := digit_ne_dot hd2
  simp [tryTs, h1, h2]

theorem tsScan_idem_aux : ∀ n f g s, s.length ≤ n → s.length ≤ f →
    (tsScanF f s).length ≤ g → tsScanF g (tsScanF f s) = tsScanF f s := by
  intro n
  induction n with
  | zero =>
    intro f g s hn _ _
    have : s = [] := List.length_eq_zero.mp (Nat.le_zero.mp hn)
    subst this
    rw [tsScanF_nil, tsScanF_nil]
  | succ n ih =>
    intro f g s hn hf hg
    match s with
    | [] => rw [tsScanF_nil, tsScanF_nil]
    | c :: u =>
      simp only [List.length_cons] at hn hf
      obtain ⟨f', rfl⟩ : ∃ f', f = f' + 1 := by
        cases f
        · omega
        · exact ⟨_, rfl⟩
      by_cases hc : c = '['
      · subst hc
        cases htry : tryTs u with
        | some x =>
          obtain ⟨m, sec, rest⟩ := x
          obtain ⟨d1, d2, e1, e2, hpad, hd1, hd2, hsec, he1, he2⟩ :=
            tryTs_some_shape htry
          have hrest := tryTs_some_length htry
          rw [tsScanF_cons_some f' htry, hpad, hsec] at hg ⊢
          simp only [List.cons_append, List.nil_append] at hg ⊢
          simp only [List.length_cons] at hg
          obtain ⟨g', rfl⟩ : ∃ g', g = g' + 1 := by
            cases g
            · omega
            · exact ⟨_, rfl⟩
          rw [tsScanF_cons_none g' (tryTs_none_emitted hd2 _)]
          have hne : ∀ x ∈ [d1, d2, ':', e1, e2, ']'], x ≠ '[' := by
            intro x hx
            simp only [List.mem_cons, List.not_mem_nil, or_false] at hx
            rcases hx with rfl | rfl | rfl | rfl | rfl | rfl
            · exact digit_ne_lb hd1
            · exact digit_ne_lb hd2
            · decide
            · exact digit_ne_lb he1
            · exact digit_ne_lb he2
            · decide
          have hwalk := tsScanF_append_noLb [d1, d2, ':', e1, e2, ']']
            (tsScanF f' rest) g' hne
            (by simp only [List.length_cons, List.length_nil]; omega)
          simp only [List.cons_append, List.nil_append, List.length_cons,
            List.length_nil] at hwalk
          rw [hwalk]
          have hinner : tsScanF (g' - (0 + 1 + 1 + 1 + 1 + 1 + 1)) (tsScanF f' rest)
              = tsScanF f' rest := by
            apply ih f' _ rest (by omega) (by omega)
            apply le_trans (le_refl _)
            omega
          rw [hinner]
        | none =>
          rw [tsScanF_cons_none f' htry] at hg ⊢
          simp only [List.length_cons] at hg
          obtain ⟨g', rfl⟩ : ∃ g', g = g' + 1 := by
            cases g
            · omega
            · exact ⟨_, rfl⟩
          rw [tsScanF_cons_none g' (tryTs_none_after_scan htry)]
          rw [ih f' g' u (by omega) (by omega) (by omega)]
      · rw [tsScanF_cons_ne f' u hc] at hg ⊢
        simp only [List.length_cons] at hg
        obtain ⟨g', rfl⟩ : ∃ g', g = g' + 1 := by
          cases g
          · omega
          · exact ⟨_, rfl⟩
        rw [tsScanF_cons_ne g' _ hc]
        rw [ih f' g' u (by omega) (by omega) (by omega)]

/-- C1 (amended): the timestamp-canonicalisation stage on its own is
idempotent — applying it twice yields exactly the same string as applying
it once, for every input; the full pipeline (with the speaker-run
compression) is not, as `C1_pipeline_not_idempotent` shows. -/
theorem C1_timestamp_stage_idempotent (s : String) :
    normalizeTimestampsStage (normalizeTimestampsStage s) = normalizeTimestampsStage s := by
  unfold normalizeTimestampsStage tsScan
  exact congrArg String.mk
    (tsScan_idem_aux s.data.length s.data.length _ s.data le_rfl le_rfl le_rfl)

def c1x : String := "a\n•\n•\nb"

/-- C1 (counterexample): the claimed idempotence of the full pipeline
fails, e.g. on a text with two bullet-marker-only lines: the post-pass
turns them into a three-newline run which only the second application
collapses. -/
theorem C1_pipeline_not_idempotent :
    normalizeGeminiTimestamps (normalizeGeminiTimestamps c1x)
      ≠ normalizeGeminiTimestamps c1x := by decide


/-! ## C8: the compressor's post-pass -/

theorem collapseNlAux_cons_nl (n : Nat) (t : List Char) :
    collapseNlAux n ('\n' :: t) = collapseNlAux (n + 1) t := by
  conv_lhs => unfold collapseNlAux
  rw [if_pos rfl]

theorem collapseNlAux_cons_ne {c : Char} (n : Nat) (t : List Char) (hc : c ≠ '\n') :
    collapseNlAux n (c :: t) = emitNl n ++ c :: collapseNlAux 0 t := by
  conv_lhs => unfold collapseNlAux
  rw [if_neg hc]

theorem collapseNlAux_run : ∀ k n t,
    collapseNlAux n (List.replicate k '\n' ++ t) = collapseNlAux (n + k) t := by
  intro k
  induction k with
  | zero => intro n t; simp
  | succ k ih =>
    intro n t
    rw [List.replicate_succ, List.cons_append, collapseNlAux_cons_nl, ih (n + 1) t,
      show n + 1 + k = n + (k + 1) from by omega]

theorem collapseNl_run {k : Nat} (post : List Char) (hk : 3 ≤ k)
    (hp : post.head? ≠ some '\n') :
    collapseNl (List.replicate k '\n' ++ post)
      = '\n' :: '\n' :: collapseNl post := by
  unfold collapseNl
  rw [collapseNlAux_run k 0 post]
  match post with
  | [] =>
    unfold collapseNlAux emitNl
    rw [show min (0 + k) 2 = 2 from by omega]
    rfl
  | c :: t =>
    have hc : c ≠ '\n' := by
      intro he
      exact hp (by rw [he]; rfl)
    rw [collapseNlAux_cons_ne (0 + k) t hc, collapseNlAux_cons_ne 0 t hc]
    have he1 : emitNl (0 + k) = ['\n', '\n'] := by
      unfold emitNl
      rw [show min (0 + k) 2 = 2 from by omega]
      rfl
    have he2 : emitNl 0 = [] := rfl
    rw [he1, he2]
    simp

theorem brAuxF_nil (f : Nat) (b : Bool) : brAuxF f b [] = [] := by
  cases f <;> rfl

theorem brAuxF_succ_cons (f : Nat) (b : Bool) (c : Char) (t : List Char) :
    brAuxF (f + 1) b (c :: t) =
      if b then
        (match bulletArm (c :: t) with
         | some (lc, rest) => brAuxF f (lc = '\n') rest
         | none => c :: brAuxF f (c = '\n') t)
      else c :: brAuxF f (c = '\n') t := rfl

theorem brAuxF_true_arm_none {c : Char} {t : List Char}
    (f : Nat) (h : bulletArm (c :: t) = none) :
    brAuxF (f + 1) true (c :: t) = c :: brAuxF f (c = '\n') t := by
  rw [brAuxF_succ_cons, h]
  exact rfl

theorem brAuxF_false {c : Char} (f : Nat) (t : List Char) :
    brAuxF (f + 1) false (c :: t) = c :: brAuxF f (c = '\n') t := by
  rw [brAuxF_succ_cons]
  simp

theorem head_dropWhile_not {p : Char → Bool} : ∀ (l : List Char) (c : Char),
    (l.dropWhile p).head? = some c → p c = false := by
  intro l
  induction l with
  | nil => intro c h; simp [List.dropWhile] at h
  | cons a t ih =>
    intro c h
    rw [List.dropWhile_cons] at h
    split at h
    · exact ih c h
    · next hp =>
      simp only [List.head?_cons, Option.some.injEq] at h
      subst h
      simpa using hp

theorem trimEndL_last {s : List Char} {c : Char}
    (h : (trimEndL s).getLast? = some c) : isWsC c = false := by
  unfold trimEndL at h
  rw [List.getLast?_reverse] at h
  exact head_dropWhile_not _ _ h

def c8u : String := "ab "


/-! ## C7: the speaker counter -/

/-- C7: the speaker counter returns the number of distinct identifiers
among the case-insensitive `Konuşmacı <N>` occurrences when at least one
exists; otherwise the number of distinct (upper-cased) letters among the
`<Letter> Kişisi` occurrences when at least one exists; otherwise 1.
The result is always at least 1 and, being the cardinality of the set of
seen identifiers, is independent of the order of occurrences. -/
theorem C7_speaker_counter (text : String) :
    1 ≤ countSpeakersFromTranscription text ∧
    (modernIds text.data ≠ [] →
      countSpeakersFromTranscription text = (modernIds text.data).toFinset.card) ∧
    (modernIds text.data = [] → legacyLetters text.data ≠ [] →
      countSpeakersFromTranscription text = (legacyLetters text.data).toFinset.card) ∧
    (modernIds text.data = [] → legacyLetters text.data = [] →
      countSpeakersFromTranscription text = 1) := by
  refine ⟨?_, ?_, ?_, ?_⟩
  · unfold countSpeakersFromTranscription
    split
    · split
      · exact le_refl 1
      · exact le_max_right _ 1
    · exact le_max_right _ 1
  · intro hm
    unfold countSpeakersFromTranscription
    rw [if_neg (by simpa using hm)]
    rw [List.card_toFinset]
    have hd : (modernIds text.data).dedup ≠ [] := by
      intro he
      exact hm ((List.dedup_eq_nil _).mp he)
    have h1 : 1 ≤ (modernIds text.data).dedup.length := by
      cases hdd : (modernIds text.data).dedup with
      | nil => exact absurd hdd hd
      | cons a t => simp
    omega
  · intro hm hl
    unfold countSpeakersFromTranscription
    rw [if_pos (by simpa using hm), if_neg (by simpa using hl)]
    rw [List.card_toFinset]
    have hd : (legacyLetters text.data).dedup ≠ [] := by
      intro he
      exact hl ((List.dedup_eq_nil _).mp he)
    have h1 : 1 ≤ (legacyLetters text.data).dedup.length := by
      cases hdd : (legacyLetters text.data).dedup with
      | nil => exact absurd hdd hd
      | cons a t => simp
    omega
  · intro hm hl
    unfold countSpeakersFromTranscription
    rw [if_pos (by simpa using hm), if_pos (by simpa using hl)]

def c7a : String := "Konuşmacı 1 ve Konuşmacı 2. konuşmacı 1, Konuşmacı 2"

def c7b : String := "hiç konuşma işareti yok"

theorem C7_speaker_counter_witness :
    countSpeakersFromTranscription c7a = (modernIds c7a.data).toFinset.card ∧
    (modernIds c7a.data).toFinset.card = 2 ∧
    countSpeakersFromTranscription c7b = 1 :=
  ⟨(C7_speaker_counter c7a).2.1 (by decide), by decide,
   (C7_speaker_counter c7b).2.2.2 (by decide) (by decide)⟩



/-- Does this raw line make `renderAiImprovedPreview` produce output —
either a block of its own or an item that survives into a bullet node
at the next flush? -/
def producesBlock (l : List Char) : Bool :=
  !(trimB l).isEmpty && !isSeparator (trimB l) &&
    (match classifyCommon (trimB l) with
     | .disclaimer => false
     | .bulletItem none => false
     | .headingLoose none => false
     | .headingAtx none => false
     | _ => true)

theorem flushB_eq_nil_iff (buf : List String) : flushB buf = [] ↔ buf = [] := by
  unfold flushB
  split
  · next h => simpa using h
  · next h =>
    constructor
    · intro hh
      exact absurd hh (by simp)
    · intro hh
      exact absurd hh (by simpa using h)

theorem tpStepList_eq_nil_iff : ∀ (ls : List (List Char)) (buf : List String),
    tpStepList ls buf = [] ↔ (buf = [] ∧ ∀ l ∈ ls, producesBlock l = false) := by
  intro ls
  induction ls with
  | nil =>
    intro buf
    simp only [tpStepList, flushB_eq_nil_iff]
    simp
  | cons l ls ih =>
    intro buf
    unfold tpStepList
    by_cases hb : (trimB l).isEmpty
    · have hP : producesBlock l = false := by
        simp [producesBlock, hb]
      rw [if_pos hb]
      simp [List.append_eq_nil, flushB_eq_nil_iff, ih, List.forall_mem_cons, hP]
    · rw [if_neg hb]
      by_cases hsep : isSeparator (trimB l)
      · have hP : producesBlock l = false := by
          simp [producesBlock, hsep]
        rw [if_pos hsep]
        simp [List.append_eq_nil, flushB_eq_nil_iff, ih, List.forall_mem_cons, hP]
      · rw [if_neg hsep]
        have hbe : (trimB l).isEmpty = false := Bool.eq_false_iff.mpr hb
        have hse : isSeparator (trimB l) = false := Bool.eq_false_iff.mpr hsep
        cases hcl : classifyCommon (trimB l) with
        | disclaimer =>
          have hP : producesBlock l = false := by
            unfold producesBlock
            rw [hcl]
            simp
          simp [List.append_eq_nil, flushB_eq_nil_iff, ih, List.forall_mem_cons, hP]
        | speakerC sp t c =>
          have hP : producesBlock l = true := by
            unfold producesBlock
            rw [hcl, hbe, hse]
            simp
          simp [List.forall_mem_cons, hP]
        | bulletItem it =>
          cases it with
          | some s =>
            have hP : producesBlock l = true := by
              unfold producesBlock
              rw [hcl, hbe, hse]
              simp
            rw [ih]
            simp [List.forall_mem_cons, hP]
          | none =>
            have hP : producesBlock l = false := by
              unfold producesBlock
              rw [hcl]
              simp
            rw [ih]
            simp [List.forall_mem_cons, hP]
        | headingLoose ti =>
          cases ti with
          | some s =>
            have hP : producesBlock l = true := by
              unfold producesBlock
              rw [hcl, hbe, hse]
              simp
            simp [List.forall_mem_cons, hP]
          | none =>
            have hP : producesBlock l = false := by
              unfold producesBlock
              rw [hcl]
              simp
            simp [List.append_eq_nil, flushB_eq_nil_iff, ih, List.forall_mem_cons, hP]
        | headingAtx ti =>
          cases ti with
          | some s =>
            have hP : producesBlock l = true := by
              unfold producesBlock
              rw [hcl, hbe, hse]
              simp
            simp [List.forall_mem_cons, hP]
          | none =>
            have hP : producesBlock l = false := by
              unfold producesBlock
              rw [hcl]
              simp
            simp [List.append_eq_nil, flushB_eq_nil_iff, ih, List.forall_mem_cons, hP]
        | headingIco ti d =>
          have hP : producesBlock l = true := by
            unfold producesBlock
            rw [hcl, hbe, hse]
            simp
          simp [List.forall_mem_cons, hP]
        | para c =>
          have hP : producesBlock l = true := by
            unfold producesBlock
            rw [hcl, hbe, hse]
            simp
          simp [List.forall_mem_cons, hP]

/-- C2 (amended): the block parser is total by construction and returns
a finite ordered node list, but the result may be empty even for a
non-empty normalized input: a non-blank line that is a decorative
separator, disclaimer boilerplate, or a bullet/heading whose extracted
text strips to empty produces nothing.  The output is empty exactly
when every line of the sanitised, compressed text is such a
non-producing line. -/
theorem C2_parser_output_empty_iff (text : String) :
    renderAiImprovedPreview text = [] ↔
      ∀ l ∈ splitNl (sanitizeAi (compressConsecutiveSpeakers text).data),
        producesBlock l = false := by
  unfold renderAiImprovedPreview
  rw [tpStepList_eq_nil_iff]
  simp

def c2x : String := "***"

/-- C2 (counterexample): `"***"` is a non-empty fixed point of the
normalization pipeline, yet the parser returns the empty block list for
it — its single non-blank line is a decorative separator and resolves to
no block at all. -/
theorem C2_nonempty_input_empty_output :
    normalizeGeminiTimestamps c2x = c2x ∧ c2x ≠ "" ∧
      renderAiImprovedPreview c2x = [] := by decide

def c5x : String := "📋 BAŞLIK: Toplantı"

/-- C5 (code bug): on the icon heading line `"📋 BAŞLIK: Toplantı"` the
parser emits `Heading{title:"Toplantı", detail:"BAŞLIK"}` — the detail is
NOT absent as claimed.  The guard compares `detail.toLowerCase()` with
the literal `'başlık'`, but JavaScript `toLowerCase` maps the `I` of
`BAŞLIK` to a dotted `i`, so the comparison fails and the keyword is
kept as a detail. -/
theorem C5_heading_keyword_detail_bug :
    renderAiImprovedPreview c5x = [.headingN "Toplantı" (some "BAŞLIK")] ∧
      "BAŞLIK".data.map jsLowerC ≠ basLikWord := by decide


/-! ## C9: cleanliness of the strings stored in preview nodes -/

/-- No asterisk character. -/
def noStar (l : List Char) : Bool := l.all (fun c => c ≠ '*')

/-- No two adjacent whitespace characters (equivalently: no whitespace
run of length two or more). -/
def noWsPair : List Char → Bool
  | c :: d :: t => !(isWsC c && isWsC d) && noWsPair (d :: t)
  | _ => true

/-- The first character, if any, is not whitespace. -/
def headOK (l : List Char) : Bool :=
  match l with
  | [] => true
  | c :: _ => !isWsC c

/-- The last character, if any, is not whitespace. -/
def lastOK (l : List Char) : Bool :=
  match l.getLast? with
  | none => true
  | some c => !isWsC c

/-- The cleanliness invariant of C9: no `*`, no leading or trailing
whitespace, no run of two or more whitespace characters. -/
def cleanL (l : List Char) : Bool := noStar l && noWsPair l && headOK l && lastOK l

def cleanS (s : String) : Bool := cleanL s.data

theorem noStar_iff (l : List Char) : noStar l = true ↔ ∀ c ∈ l, c ≠ '*' := by
  simp [noStar, List.all_eq_true]

theorem noWsPair_tail {c : Char} {t : List Char} (h : noWsPair (c :: t) = true) :
    noWsPair t = true := by
  cases t with
  | nil => rfl
  | cons d t' =>
    simp only [noWsPair, Bool.and_eq_true] at h
    exact h.2

theorem noWsPair_cons {c : Char} {t : List Char} (hc : isWsC c = false)
    (h : noWsPair t = true) : noWsPair (c :: t) = true := by
  cases t with
  | nil => rfl
  | cons d t' => simp [noWsPair, hc, h]

theorem noWsPair_cons_pair {c d : Char} {t : List Char}
    (h : noWsPair (c :: d :: t) = true) : (isWsC c && isWsC d) = false := by
  cases hcd : (isWsC c && isWsC d) with
  | false => rfl
  | true => simp [noWsPair, hcd] at h

theorem noWsPair_cons_headOK {c : Char} {X : List Char} (hX : noWsPair X = true)
    (hh : headOK X = true) : noWsPair (c :: X) = true := by
  cases X with
  | nil => rfl
  | cons x xs =>
    simp only [headOK, Bool.not_eq_true'] at hh
    simp [noWsPair, hh, hX]

theorem noWsPair_dropWhile (p : Char → Bool) :
    ∀ l : List Char, noWsPair l = true → noWsPair (l.dropWhile p) = true := by
  intro l
  induction l with
  | nil => intro h; exact h
  | cons c t ih =>
    intro h
    rw [List.dropWhile_cons]
    split
    · exact ih (noWsPair_tail h)
    · exact h

theorem noWsPair_drop : ∀ (n : Nat) (l : List Char), noWsPair l = true →
    noWsPair (l.drop n) = true := by
  intro n
  induction n with
  | zero => intro l h; exact h
  | succ m ih =>
    intro l h
    cases l with
    | nil => rfl
    | cons c t => exact ih t (noWsPair_tail h)

theorem noWsPair_append_left : ∀ (a b : List Char),
    noWsPair (a ++ b) = true → noWsPair a = true := by
  intro a
  induction a with
  | nil => intro b _; rfl
  | cons c a' ih =>
    intro b h
    cases a' with
    | nil => rfl
    | cons d a'' =>
      rw [List.cons_append, List.cons_append] at h
      have h1 := noWsPair_cons_pair h
      have h2 : noWsPair ((d :: a'') ++ b) = true := by
        rw [List.cons_append]
        exact noWsPair_tail h
      have h3 := ih b h2
      simp [noWsPair, h1, h3]

theorem nwp_append_nonws : ∀ (l X : List Char),
    l.all (fun c => !isWsC c) = true → noWsPair X = true →
    noWsPair (l ++ X) = true := by
  intro l
  induction l with
  | nil => intro X _ hX; exact hX
  | cons c t ih =>
    intro X hl hX
    simp only [List.all_cons, Bool.and_eq_true] at hl
    have hc : isWsC c = false := by simpa using hl.1
    rw [List.cons_append]
    exact noWsPair_cons hc (ih X hl.2 hX)

theorem nwp_of_all_nonws (l : List Char) (h : l.all (fun c => !isWsC c) = true) :
    noWsPair l = true := by
  have := nwp_append_nonws l [] h rfl
  simpa using this

theorem dropWhile_eq_append (p : Char → Bool) :
    ∀ l : List Char, ∃ a, l = a ++ l.dropWhile p := by
  intro l
  induction l with
  | nil => exact ⟨[], rfl⟩
  | cons c t ih =>
    by_cases h : p c
    · obtain ⟨a, ha⟩ := ih
      refine ⟨c :: a, ?_⟩
      rw [List.dropWhile_cons, if_pos h, List.cons_append, ← ha]
    · exact ⟨[], by rw [List.dropWhile_cons, if_neg h]; rfl⟩

theorem trimEndL_append (u : List Char) : ∃ t, u = trimEndL u ++ t := by
  obtain ⟨a, ha⟩ := dropWhile_eq_append isWsC u.reverse
  refine ⟨a.reverse, ?_⟩
  have h2 : u.reverse.reverse = (a ++ u.reverse.dropWhile isWsC).reverse := by
    rw [← ha]
  rw [List.reverse_reverse, List.reverse_append] at h2
  exact h2

theorem mem_trimB {c : Char} {l : List Char} (h : c ∈ trimB l) : c ∈ l := by
  unfold trimB at h
  rw [List.mem_reverse] at h
  have h2 : c ∈ (l.dropWhile isWsC).reverse :=
    (((l.dropWhile isWsC).reverse).dropWhile_sublist isWsC).subset h
  rw [List.mem_reverse] at h2
  exact (l.dropWhile_sublist isWsC).subset h2

theorem headOK_trimB (l : List Char) : headOK (trimB l) = true := by
  show headOK (trimEndL (l.dropWhile isWsC)) = true
  obtain ⟨t, ht⟩ := trimEndL_append (l.dropWhile isWsC)
  cases he : trimEndL (l.dropWhile isWsC) with
  | nil => rfl
  | cons x rest =>
    rw [he, List.cons_append] at ht
    have hx : (l.dropWhile isWsC).head? = some x := by rw [ht]; rfl
    have := head_dropWhile_not l x hx
    simp [headOK, this]

theorem lastOK_trimEndL (u : List Char) : lastOK (trimEndL u) = true := by
  unfold lastOK
  cases hl : (trimEndL u).getLast? with
  | none => rfl
  | some c => simp [trimEndL_last hl]

theorem lastOK_trimB (l : List Char) : lastOK (trimB l) = true :=
  lastOK_trimEndL (l.dropWhile isWsC)

theorem noWsPair_trimB {l : List Char} (h : noWsPair l = true) :
    noWsPair (trimB l) = true := by
  have h1 : noWsPair (l.dropWhile isWsC) = true := noWsPair_dropWhile _ l h
  obtain ⟨t, ht⟩ := trimEndL_append (l.dropWhile isWsC)
  have h2 : noWsPair (trimEndL (l.dropWhile isWsC) ++ t) = true := by
    rw [← ht]
    exact h1
  exact noWsPair_append_left _ _ h2


theorem collapseWsAux_nwp : ∀ (s : List Char) (o : Option (Char × Bool)),
    noWsPair (collapseWsAux o s) = true := by
  intro s
  induction s with
  | nil =>
    intro o
    match o with
    | none => rfl
    | some (w, more) =>
      show noWsPair (if more then [' '] else [w]) = true
      cases more <;> rfl
  | cons c t ih =>
    intro o
    match o with
    | none =>
      show noWsPair (if isWsC c then collapseWsAux (some (c, false)) t
        else c :: collapseWsAux none t) = true
      by_cases h : isWsC c
      · rw [if_pos h]
        exact ih _
      · rw [if_neg h]
        exact noWsPair_cons (Bool.eq_false_iff.mpr h) (ih none)
    | some (w, more) =>
      show noWsPair (if isWsC c then collapseWsAux (some (w, true)) t
        else (if more then [' '] else [w]) ++ c :: collapseWsAux none t) = true
      by_cases h : isWsC c
      · rw [if_pos h]
        exact ih _
      · rw [if_neg h]
        have hc : isWsC c = false := Bool.eq_false_iff.mpr h
        have hrest : noWsPair (c :: collapseWsAux none t) = true :=
          noWsPair_cons hc (ih none)
        cases more with
        | false =>
          show noWsPair ([w] ++ c :: collapseWsAux none t) = true
          rw [List.singleton_append]
          exact noWsPair_cons_headOK hrest (by simp [headOK, hc])
        | true =>
          show noWsPair ([' '] ++ c :: collapseWsAux none t) = true
          rw [List.singleton_append]
          exact noWsPair_cons_headOK hrest (by simp [headOK, hc])

theorem mem_collapseWsAux : ∀ (s : List Char) (o : Option (Char × Bool)) (c : Char),
    c ∈ collapseWsAux o s → c = ' ' ∨ c ∈ s ∨ ∃ b w, o = some (w, b) ∧ c = w := by
  intro s
  induction s with
  | nil =>
    intro o c hc
    match o with
    | none => simp [collapseWsAux] at hc
    | some (w, more) =>
      cases more with
      | false =>
        have : c ∈ [w] := hc
        simp only [List.mem_singleton] at this
        exact Or.inr (Or.inr ⟨false, w, rfl, this⟩)
      | true =>
        have : c ∈ [' '] := hc
        simp only [List.mem_singleton] at this
        exact Or.inl this
  | cons x t ih =>
    intro o c hc
    match o with
    | none =>
      have hc2 : c ∈ (if isWsC x then collapseWsAux (some (x, false)) t
          else x :: collapseWsAux none t) := hc
      by_cases h : isWsC x
      · rw [if_pos h] at hc2
        rcases ih _ c hc2 with h1 | h1 | ⟨b, w, hw, rfl⟩
        · exact Or.inl h1
        · exact Or.inr (Or.inl (List.mem_cons_of_mem x h1))
        · simp only [Option.some.injEq, Prod.mk.injEq] at hw
          exact Or.inr (Or.inl (by rw [← hw.1]; exact List.mem_cons_self x t))
      · rw [if_neg h] at hc2
        rcases List.mem_cons.mp hc2 with rfl | h1
        · exact Or.inr (Or.inl (List.mem_cons_self c t))
        · rcases ih none c h1 with h2 | h2 | ⟨b, w, hw, rfl⟩
          · exact Or.inl h2
          · exact Or.inr (Or.inl (List.mem_cons_of_mem x h2))
          · cases hw
    | some (w, more) =>
      have hc2 : c ∈ (if isWsC x then collapseWsAux (some (w, true)) t
          else (if more then [' '] else [w]) ++ x :: collapseWsAux none t) := hc
      by_cases h : isWsC x
      · rw [if_pos h] at hc2
        rcases ih _ c hc2 with h1 | h1 | ⟨b, w', hw, rfl⟩
        · exact Or.inl h1
        · exact Or.inr (Or.inl (List.mem_cons_of_mem x h1))
        · simp only [Option.some.injEq, Prod.mk.injEq] at hw
          exact Or.inr (Or.inr ⟨more, w, rfl, hw.1.symm⟩)
      · rw [if_neg h] at hc2
        rcases List.mem_append.mp hc2 with h1 | h1
        · cases more with
          | false =>
            simp at h1
            exact Or.inr (Or.inr ⟨false, w, rfl, h1⟩)
          | true =>
            simp at h1
            exact Or.inl h1
        · rcases List.mem_cons.mp h1 with rfl | h2
          · exact Or.inr (Or.inl (List.mem_cons_self c t))
          · rcases ih none c h2 with h3 | h3 | ⟨b, w', hw, rfl⟩
            · exact Or.inl h3
            · exact Or.inr (Or.inl (List.mem_cons_of_mem x h3))
            · cases hw

theorem stripLCore_clean (v : List Char) : cleanL (stripLCore v) = true := by
  unfold stripLCore
  have hyS : ∀ c ∈ removeStars
      (replacePair star1L (replacePair star2L (replacePair star3L v))), c ≠ '*' := by
    intro c hc
    unfold removeStars at hc
    have := (List.mem_filter.mp hc).2
    simpa using this
  have hz1 : ∀ c ∈ collapseWs (removeStars
      (replacePair star1L (replacePair star2L (replacePair star3L v)))), c ≠ '*' := by
    intro c hc
    rcases mem_collapseWsAux _ none c hc with h1 | h1 | ⟨b, w, hw, rfl⟩
    · rw [h1]; decide
    · exact hyS c h1
    · cases hw
  have hz2 : noWsPair (collapseWs (removeStars
      (replacePair star1L (replacePair star2L (replacePair star3L v))))) = true :=
    collapseWsAux_nwp _ none
  unfold cleanL
  rw [(noStar_iff _).mpr (fun c hc => hz1 c (mem_trimB hc)), noWsPair_trimB hz2,
    headOK_trimB, lastOK_trimB]
  rfl

theorem digit_bounds {c : Char} (h : c.isDigit = true) :
    48 ≤ c.toNat ∧ c.toNat ≤ 57 := by
  simp [Char.isDigit] at h
  exact h

theorem digit_nonws {c : Char} (h : c.isDigit = true) : isWsC c = false := by
  obtain ⟨h1, h2⟩ := digit_bounds h
  cases hw : isWsC c with
  | false => rfl
  | true =>
    exfalso
    unfold isWsC at hw
    simp only [Bool.or_eq_true, Bool.and_eq_true, decide_eq_true_eq] at hw
    rcases hw with ((((((((((((((h|h)|h)|h)|h)|h)|h)|h)|h)|h)|h)|h)|h)|h)|h)
    all_goals first
      | (subst h; exact absurd h1 (by decide))
      | omega

theorem digit_not_star {c : Char} (h : c.isDigit = true) : c ≠ '*' := by
  intro he
  subst he
  exact absurd h (by decide)

theorem cleanL_konLabel {digits : List Char} (hne : digits ≠ [])
    (hdig : ∀ c ∈ digits, c.isDigit = true) :
    cleanL ("Konuşmacı ".data ++ digits) = true := by
  have hre : "Konuşmacı ".data ++ digits = "Konuşmacı".data ++ (' ' :: digits) := by
    have h0 : "Konuşmacı ".data = "Konuşmacı".data ++ [' '] := by decide
    rw [h0, List.append_assoc]
    rfl
  unfold cleanL
  rw [hre]
  simp only [Bool.and_eq_true]
  obtain ⟨d, ds, rfl⟩ := List.exists_cons_of_ne_nil hne
  refine ⟨⟨⟨?_, ?_⟩, ?_⟩, ?_⟩
  · unfold noStar
    rw [List.all_append]
    simp only [Bool.and_eq_true]
    refine ⟨by decide, ?_⟩
    rw [List.all_eq_true]
    intro c hc
    rcases List.mem_cons.mp hc with rfl | hc2
    · decide
    · simpa using digit_not_star (hdig c hc2)
  · refine nwp_append_nonws _ _ (by decide) ?_
    refine noWsPair_cons_headOK ?_ ?_
    · refine nwp_of_all_nonws _ ?_
      rw [List.all_eq_true]
      intro c hc
      simp [digit_nonws (hdig c hc)]
    · show (!isWsC d) = true
      simp [digit_nonws (hdig d (List.mem_cons_self d ds))]
  · have hh : headOK ("Konuşmacı".data ++ (' ' :: d :: ds)) = !isWsC 'K' := rfl
    rw [hh]
    decide
  · unfold lastOK
    rw [List.getLast?_append_cons]
    rw [List.getLast?_cons_cons]
    have hlast : (d :: ds).getLast? = some ((d :: ds).getLast (by simp)) :=
      List.getLast?_eq_getLast _ _
    rw [hlast]
    have hmem : (d :: ds).getLast (by simp) ∈ d :: ds := List.getLast_mem _
    simp [digit_nonws (hdig _ hmem)]

theorem matchCi_drop {p s r : List Char} (h : matchCi p s = some r) :
    r = s.drop p.length := by
  induction p generalizing s with
  | nil =>
    simp only [matchCi, Option.some.injEq] at h
    subst h
    rfl
  | cons a ps ih =>
    cases s with
    | nil => simp [matchCi] at h
    | cons c cs =>
      unfold matchCi at h
      split at h
      · have := ih h
        simpa using this
      · simp at h

theorem unifyKonF_nil : ∀ fuel, unifyKonF fuel [] = [] := by
  intro fuel
  cases fuel <;> rfl

theorem unifyKonF_ne_nil : ∀ (fuel : Nat) (s : List Char), s ≠ [] →
    unifyKonF fuel s ≠ [] := by
  intro fuel s hs
  match fuel, s with
  | 0, s => exact hs
  | f + 1, [] => exact absurd rfl hs
  | f + 1, c :: t =>
    unfold unifyKonF
    cases h1 : matchCi missp1 (c :: t) with
    | some r =>
      simp only [h1]
      intro hh
      exact absurd (List.append_eq_nil.mp hh).1 (by decide)
    | none =>
      simp only [h1]
      cases h2 : matchCi missp2 (c :: t) with
      | some r =>
        simp only [h2]
        intro hh
        exact absurd (List.append_eq_nil.mp hh).1 (by decide)
      | none =>
        simp only [h2]
        cases h3 : matchCi missp3 (c :: t) with
        | some r =>
          simp only [h3]
          intro hh
          exact absurd (List.append_eq_nil.mp hh).1 (by decide)
        | none =>
          simp only [h3]
          exact List.cons_ne_nil c _

theorem unifyKonF_headOK : ∀ (fuel : Nat) (s : List Char), headOK s = true →
    headOK (unifyKonF fuel s) = true := by
  intro fuel s hh
  match fuel, s with
  | 0, s => exact hh
  | f + 1, [] => exact hh
  | f + 1, c :: t =>
    unfold unifyKonF
    cases h1 : matchCi missp1 (c :: t) with
    | some r =>
      simp only [h1]
      show (!isWsC 'K') = true
      decide
    | none =>
      simp only [h1]
      cases h2 : matchCi missp2 (c :: t) with
      | some r =>
        simp only [h2]
        show (!isWsC 'K') = true
        decide
      | none =>
        simp only [h2]
        cases h3 : matchCi missp3 (c :: t) with
        | some r =>
          simp only [h3]
          show (!isWsC 'K') = true
          decide
        | none =>
          simp only [h3]
          exact hh

theorem getLast?_drop_ne {n : Nat} {l : List Char} (h : l.drop n ≠ []) :
    (l.drop n).getLast? = l.getLast? := by
  have hsplit : l = l.take n ++ l.drop n := (List.take_append_drop n l).symm
  obtain ⟨x, t, hxt⟩ := List.exists_cons_of_ne_nil h
  conv_rhs => rw [hsplit]
  rw [List.getLast?_append, hxt]
  have hs : (x :: t).getLast? = some ((x :: t).getLast (by simp)) :=
    List.getLast?_eq_getLast _ _
  rw [hs]
  rfl

theorem lastOK_drop (n : Nat) {l : List Char} (h : lastOK l = true) :
    lastOK (l.drop n) = true := by
  by_cases hd : l.drop n = []
  · rw [hd]
    rfl
  · unfold lastOK at h ⊢
    rw [getLast?_drop_ne hd]
    exact h

theorem kon_append_good {X : List Char} (h1 : noStar X = true)
    (h2 : noWsPair X = true) (h3 : lastOK X = true) :
    noStar (konWord ++ X) = true ∧ noWsPair (konWord ++ X) = true ∧
      lastOK (konWord ++ X) = true := by
  refine ⟨?_, ?_, ?_⟩
  · unfold noStar at h1 ⊢
    rw [List.all_append, h1, Bool.and_true]
    decide
  · exact nwp_append_nonws _ _ (by decide) h2
  · unfold lastOK at h3 ⊢
    by_cases hX : X = []
    · subst hX
      simp only [List.append_nil]
      decide
    · rw [List.getLast?_append]
      obtain ⟨x, t, hxt⟩ := List.exists_cons_of_ne_nil hX
      subst hxt
      have hs : (x :: t).getLast? = some ((x :: t).getLast (by simp)) :=
        List.getLast?_eq_getLast _ _
      rw [hs] at h3 ⊢
      exact h3

theorem unifyKonF_good : ∀ (fuel : Nat) (s : List Char), noStar s = true →
    noWsPair s = true → lastOK s = true →
    noStar (unifyKonF fuel s) = true ∧ noWsPair (unifyKonF fuel s) = true ∧
      lastOK (unifyKonF fuel s) = true := by
  intro fuel
  induction fuel with
  | zero => intro s h1 h2 h3; exact ⟨h1, h2, h3⟩
  | succ f ih =>
    intro s h1 h2 h3
    cases s with
    | nil => exact ⟨h1, h2, h3⟩
    | cons c t =>
      have hmatch : ∀ (r : List Char) (n : Nat), r = (c :: t).drop n →
          noStar (konWord ++ unifyKonF f r) = true ∧
            noWsPair (konWord ++ unifyKonF f r) = true ∧
            lastOK (konWord ++ unifyKonF f r) = true := by
        intro r n hr
        subst hr
        have ha : noStar ((c :: t).drop n) = true :=
          (noStar_iff _).mpr (fun x hx => (noStar_iff _).mp h1 x (List.drop_subset n _ hx))
        have hb := noWsPair_drop n _ h2
        have hc := lastOK_drop n h3
        obtain ⟨g1, g2, g3⟩ := ih _ ha hb hc
        exact kon_append_good g1 g2 g3
      unfold unifyKonF
      cases hm1 : matchCi missp1 (c :: t) with
      | some r =>
        simp only [hm1]
        exact hmatch r missp1.length (matchCi_drop hm1)
      | none =>
        simp only [hm1]
        cases hm2 : matchCi missp2 (c :: t) with
        | some r =>
          simp only [hm2]
          exact hmatch r missp2.length (matchCi_drop hm2)
        | none =>
          simp only [hm2]
          cases hm3 : matchCi missp3 (c :: t) with
          | some r =>
            simp only [hm3]
            exact hmatch r missp3.length (matchCi_drop hm3)
          | none =>
            simp only [hm3]
            have ht1 : noStar t = true :=
              (noStar_iff _).mpr
                (fun x hx => (noStar_iff _).mp h1 x (List.mem_cons_of_mem c hx))
            have ht2 := noWsPair_tail h2
            have ht3 : lastOK t = true := by
              cases t with
              | nil => rfl
              | cons d ds =>
                unfold lastOK at h3 ⊢
                rw [List.getLast?_cons_cons] at h3
                exact h3
            obtain ⟨g1, g2, g3⟩ := ih t ht1 ht2 ht3
            refine ⟨?_, ?_, ?_⟩
            · refine (noStar_iff _).mpr ?_
              intro x hx
              rcases List.mem_cons.mp hx with rfl | hx2
              · exact (noStar_iff _).mp h1 x (List.mem_cons_self x t)
              · exact (noStar_iff _).mp g1 x hx2
            · by_cases hcw : isWsC c
              · cases t with
                | nil =>
                  rw [unifyKonF_nil]
                  rfl
                | cons d ds =>
                  have hpair := noWsPair_cons_pair h2
                  rw [hcw, Bool.true_and] at hpair
                  have hhd : headOK (d :: ds) = true := by simp [headOK, hpair]
                  have hX := unifyKonF_headOK f (d :: ds) hhd
                  exact noWsPair_cons_headOK g2 hX
              · exact noWsPair_cons (Bool.eq_false_iff.mpr hcw) g2
            · cases hX : unifyKonF f t with
              | nil =>
                have ht0 : t = [] := by
                  by_contra hne
                  exact absurd hX (unifyKonF_ne_nil f t hne)
                subst ht0
                exact h3
              | cons x xs =>
                unfold lastOK at g3 ⊢
                rw [hX] at g3
                rw [List.getLast?_cons_cons]
                exact g3

theorem unifyKon_clean {w : List Char} (h : cleanL w = true) :
    cleanL (unifyKon w) = true := by
  unfold unifyKon
  unfold cleanL at h ⊢
  simp only [Bool.and_eq_true] at h ⊢
  obtain ⟨⟨⟨h1, h2⟩, h3⟩, h4⟩ := h
  obtain ⟨g1, g2, g3⟩ := unifyKonF_good w.length w h1 h2 h4
  exact ⟨⟨⟨g1, g2⟩, unifyKonF_headOK w.length w h3⟩, g3⟩

theorem speakerPat_digits {s d : List Char} {tr : Option (List Char)} {b : List Char}
    (h : speakerPat s = some (d, tr, b)) :
    d ≠ [] ∧ ∀ c ∈ d, c.isDigit = true := by
  unfold speakerPat at h
  split at h
  · exact absurd h (by simp)
  · cases hka : matchKonAlt (s.dropWhile (fun c => c = '*')) with
    | none => rw [hka] at h; exact absurd h (by simp)
    | some r1 =>
      rw [hka] at h
      simp only at h
      split at h
      · exact absurd h (by simp)
      · next hne =>
        split at h
        · exact absurd h (by simp)
        · split at h
          · next r5 heq =>
            split at h
            · next tc r6 hbs =>
              split at h
              · next r7 hr6 =>
                split at h
                · simp only [Option.some.injEq, Prod.mk.injEq] at h
                  obtain ⟨hd, -, -⟩ := h
                  subst hd
                  refine ⟨by simpa using hne, fun c hc => List.mem_takeWhile_imp hc⟩
                · exact absurd h (by simp)
              · exact absurd h (by simp)
            · exact absurd h (by simp)
          · next r7 heq =>
            split at h
            · simp only [Option.some.injEq, Prod.mk.injEq] at h
              obtain ⟨hd, -, -⟩ := h
              subst hd
              refine ⟨by simpa using hne, fun c hc => List.mem_takeWhile_imp hc⟩
            · exact absurd h (by simp)
          · exact absurd h (by simp)

theorem cleanL_nil : cleanL [] = true := rfl

theorem icoParse_fst_clean (line : List Char) : cleanL (icoParse line).1 = true := by
  unfold icoParse
  split
  · exact cleanL_nil
  · split
    · exact stripLCore_clean _
    · exact stripLCore_clean _

theorem icoParse_snd_clean (line : List Char) {d : List Char}
    (hd : (icoParse line).2 = some d) : cleanL d = true := by
  unfold icoParse at hd
  split at hd
  · exact absurd hd (by simp)
  · split at hd
    · exact absurd hd (by simp)
    · simp only at hd
      split at hd
      · exact absurd hd (by simp)
      · split at hd
        · exact absurd hd (by simp)
        · simp only [Option.some.injEq] at hd
          subst hd
          exact stripLCore_clean _

/-- The strings stored in one classified line. -/
def classStrings : CommonClass → List String
  | .disclaimer => []
  | .speakerC sp t c => sp :: c :: t.toList
  | .bulletItem it => it.toList
  | .headingLoose ti => ti.toList
  | .headingAtx ti => ti.toList
  | .headingIco ti dt => ti :: dt.toList
  | .para c => [c]

set_option maxHeartbeats 2000000 in
theorem classify_clean (line : List Char) :
    ∀ s ∈ classStrings (classifyCommon line), cleanS s = true := by
  intro s hs
  unfold classifyCommon at hs
  by_cases hd : disclaimerTest line
  · rw [if_pos hd] at hs
    simp [classStrings] at hs
  · rw [if_neg hd] at hs
    cases hsp : speakerPat line with
    | some res =>
      obtain ⟨dg, tr, b⟩ := res
      rw [hsp] at hs
      simp only [classStrings, List.mem_cons] at hs
      rcases hs with rfl | rfl | hs3
      · obtain ⟨hne, hdig⟩ := speakerPat_digits hsp
        exact cleanL_konLabel hne hdig
      · exact stripLCore_clean _
      · cases tr with
        | none => simp [timeField] at hs3
        | some u =>
          simp [timeField] at hs3
          obtain ⟨-, rfl⟩ := hs3
          exact stripLCore_clean _
    | none =>
      rw [hsp] at hs
      by_cases hp : startsPerson line
      · rw [if_pos hp] at hs
        simp only [classStrings, List.mem_cons] at hs
        rcases hs with rfl | rfl | hs3
        · exact unifyKon_clean (stripLCore_clean _)
        · exact stripLCore_clean _
        · cases hti : (personIcon line).2.1 with
          | none =>
            rw [hti] at hs3
            simp [timeField] at hs3
          | some u =>
            rw [hti] at hs3
            simp [timeField] at hs3
            obtain ⟨-, rfl⟩ := hs3
            exact stripLCore_clean _
      · rw [if_neg hp] at hs
        by_cases hbl : bulletTest line
        · rw [if_pos hbl] at hs
          by_cases hbe : (stripLCore (bulletStripMarker line)).isEmpty
          · rw [if_pos hbe] at hs
            simp [classStrings] at hs
          · rw [if_neg hbe] at hs
            simp [classStrings] at hs
            subst hs
            exact stripLCore_clean _
        · rw [if_neg hbl] at hs
          cases hlh : looseHeading line with
          | some g1 =>
            rw [hlh] at hs
            simp only [classStrings] at hs
            split at hs
            · simp at hs
            · simp at hs
              subst hs
              exact stripLCore_clean _
          | none =>
            rw [hlh] at hs
            cases hax : atxPat line with
            | some body =>
              rw [hax] at hs
              simp only [classStrings] at hs
              split at hs
              · simp at hs
              · simp at hs
                subst hs
                exact stripLCore_clean _
            | none =>
              rw [hax] at hs
              by_cases hpc : startsPCb line
              · rw [if_pos hpc] at hs
                simp only [classStrings, List.mem_cons] at hs
                rcases hs with rfl | hs2
                · exact icoParse_fst_clean line
                · cases hio : (icoParse line).2 with
                  | none =>
                    rw [hio] at hs2
                    simp at hs2
                  | some dt =>
                    rw [hio] at hs2
                    simp [mkS] at hs2
                    subst hs2
                    exact icoParse_snd_clean line hio
              · rw [if_neg hpc] at hs
                cases hfb : fallbackPat line with
                | some res =>
                  obtain ⟨label, tc, body⟩ := res
                  rw [hfb] at hs
                  simp only [classStrings, List.mem_cons] at hs
                  rcases hs with rfl | rfl | hs3
                  · exact unifyKon_clean (stripLCore_clean _)
                  · exact stripLCore_clean _
                  · by_cases htc : (trimB tc).isEmpty
                    · rw [if_pos htc] at hs3
                      simp at hs3
                    · rw [if_neg htc] at hs3
                      simp at hs3
                      subst hs3
                      exact stripLCore_clean _
                | none =>
                  rw [hfb] at hs
                  simp [classStrings] at hs
                  subst hs
                  exact stripLCore_clean _

/-- The strings stored in one preview node. -/
def nodeStrings : AiPreviewNode → List String
  | .headingN ti dt => ti :: dt.toList
  | .bulletN its => its
  | .speakerN sp t c => sp :: c :: t.toList
  | .paragraphN c => [c]

theorem flushB_clean {buf : List String} (hb : ∀ s ∈ buf, cleanS s = true) :
    ∀ n ∈ flushB buf, ∀ s ∈ nodeStrings n, cleanS s = true := by
  intro n hn s hs
  unfold flushB at hn
  split at hn
  · simp at hn
  · simp only [List.mem_singleton] at hn
    subst hn
    exact hb s hs

theorem tpStepList_clean : ∀ (ls : List (List Char)) (buf : List String),
    (∀ s ∈ buf, cleanS s = true) →
    ∀ n ∈ tpStepList ls buf, ∀ s ∈ nodeStrings n, cleanS s = true := by
  intro ls
  induction ls with
  | nil =>
    intro buf hb
    exact flushB_clean hb
  | cons l ls ih =>
    intro buf hb n hn
    unfold tpStepList at hn
    by_cases hblank : (trimB l).isEmpty
    · rw [if_pos hblank] at hn
      rcases List.mem_append.mp hn with h1 | h1
      · exact flushB_clean hb n h1
      · exact ih [] (by simp) n h1
    · rw [if_neg hblank] at hn
      by_cases hsep : isSeparator (trimB l)
      · rw [if_pos hsep] at hn
        rcases List.mem_append.mp hn with h1 | h1
        · exact flushB_clean hb n h1
        · exact ih [] (by simp) n h1
      · rw [if_neg hsep] at hn
        have hstr := classify_clean (trimB l)
        split at hn
        · rcases List.mem_append.mp hn with h1 | h1
          · exact flushB_clean hb n h1
          · exact ih [] (by simp) n h1
        · next sp t c heq =>
          rw [heq] at hstr
          rcases List.mem_append.mp hn with h1 | h1
          · exact flushB_clean hb n h1
          · rcases List.mem_cons.mp h1 with rfl | h2
            · exact fun s hs => hstr s hs
            · exact ih [] (by simp) n h2
        · next itv heq =>
          rw [heq] at hstr
          refine ih (buf ++ [itv]) ?_ n hn
          intro s hs
          rcases List.mem_append.mp hs with h1 | h1
          · exact hb s h1
          · simp only [List.mem_singleton] at h1
            subst h1
            exact hstr s (by simp [classStrings])
        · exact ih buf hb n hn
        · next tv heq =>
          rw [heq] at hstr
          rcases List.mem_append.mp hn with h1 | h1
          · exact flushB_clean hb n h1
          · rcases List.mem_cons.mp h1 with rfl | h2
            · exact fun s hs => hstr s hs
            · exact ih [] (by simp) n h2
        · rcases List.mem_append.mp hn with h1 | h1
          · exact flushB_clean hb n h1
          · exact ih [] (by simp) n h1
        · next tv heq =>
          rw [heq] at hstr
          rcases List.mem_append.mp hn with h1 | h1
          · exact flushB_clean hb n h1
          · rcases List.mem_cons.mp h1 with rfl | h2
            · exact fun s hs => hstr s hs
            · exact ih [] (by simp) n h2
        · rcases List.mem_append.mp hn with h1 | h1
          · exact flushB_clean hb n h1
          · exact ih [] (by simp) n h1
        · next tv dt heq =>
          rw [heq] at hstr
          rcases List.mem_append.mp hn with h1 | h1
          · exact flushB_clean hb n h1
          · rcases List.mem_cons.mp h1 with rfl | h2
            · exact fun s hs => hstr s hs
            · exact ih [] (by simp) n h2
        · next cc heq =>
          rw [heq] at hstr
          rcases List.mem_append.mp hn with h1 | h1
          · exact flushB_clean hb n h1
          · rcases List.mem_cons.mp h1 with rfl | h2
            · exact fun s hs => hstr s hs
            · exact ih [] (by simp) n h2

/-- C9: every string stored in a node built by the preview's block parser
— heading title and detail, speaker name, time and content, bullet items,
paragraph content — contains no asterisk, no leading or trailing
whitespace, and no two adjacent whitespace characters (equivalently, no
whitespace run of length two or more): each either passes through the
markdown stripper `stripMarkdownTokens`, whose output always satisfies
the invariant, or is the label `Konuşmacı N` built from the matched
digits, which satisfies it as well. -/
theorem C9_preview_strings_clean (text : String) :
    ∀ n ∈ renderAiImprovedPreview text, ∀ s ∈ nodeStrings n, cleanS s = true := by
  unfold renderAiImprovedPreview
  exact tpStepList_clean _ [] (by simp)

/-- C9 witness: the stripped paragraph produced for `"**iyi günler**"`. -/
theorem C9_preview_strings_clean_witness : cleanS "iyi günler" = true :=
  C9_preview_strings_clean "**iyi günler**" (AiPreviewNode.paragraphN "iyi günler")
    (by decide) "iyi günler" (by decide)


/-! ## C10: the two duplicated block parsers -/

/-- The PDF-side image of one preview node: a `BulletList` corresponds
item-for-item to consecutive individual bullet blocks. -/
def flattenNode : AiPreviewNode → List PdfBlock
  | .headingN ti dt => [.headingB ti dt]
  | .bulletN its => its.map PdfBlock.bulletB
  | .speakerN sp t c => [.speakerB sp t c]
  | .paragraphN c => [.paragraphB c]

def flattenAll (ns : List AiPreviewNode) : List PdfBlock :=
  (ns.map flattenNode).flatten

theorem flattenAll_cons (n : AiPreviewNode) (ns : List AiPreviewNode) :
    flattenAll (n :: ns) = flattenNode n ++ flattenAll ns := by
  simp [flattenAll]

theorem flattenAll_append (a b : List AiPreviewNode) :
    flattenAll (a ++ b) = flattenAll a ++ flattenAll b := by
  simp [flattenAll]

theorem flattenAll_flushB (buf : List String) :
    flattenAll (flushB buf) = buf.map PdfBlock.bulletB := by
  unfold flushB
  split
  · next h =>
    rw [List.isEmpty_iff.mp h]
    rfl
  · simp [flattenAll, flattenNode]

theorem tp_pdf_align : ∀ (ls : List (List Char)) (buf : List String),
    (∀ l ∈ ls, (trimB l).isEmpty = false ∧ isSeparator (trimB l) = false) →
    flattenAll (tpStepList ls buf) = buf.map PdfBlock.bulletB ++ parseBlocksAux ls := by
  intro ls
  induction ls with
  | nil =>
    intro buf h
    simp only [tpStepList, parseBlocksAux, flattenAll_flushB, List.append_nil]
  | cons l ls ih =>
    intro buf h
    obtain ⟨hbl, hsep⟩ := h l (List.mem_cons_self l ls)
    have hrest : ∀ x ∈ ls, (trimB x).isEmpty = false ∧ isSeparator (trimB x) = false :=
      fun x hx => h x (List.mem_cons_of_mem l hx)
    unfold tpStepList parseBlocksAux
    simp only [hbl, hsep, Bool.false_eq_true, if_false]
    cases hcl : classifyCommon (trimB l) with
    | disclaimer =>
      simp [hcl, flattenAll_append, flattenAll_flushB, ih [] hrest]
    | speakerC sp t c =>
      simp [hcl, flattenAll_append, flattenAll_cons, flattenAll_flushB,
        flattenNode, ih [] hrest]
    | bulletItem it =>
      cases it with
      | some itv =>
        simp [ih (buf ++ [itv]) hrest]
      | none =>
        simp [ih buf hrest]
    | headingLoose ti =>
      cases ti with
      | some tv =>
        simp [hcl, flattenAll_append, flattenAll_cons, flattenAll_flushB,
          flattenNode, ih [] hrest]
      | none =>
        simp [hcl, flattenAll_append, flattenAll_flushB, ih [] hrest]
    | headingAtx ti =>
      cases ti with
      | some tv =>
        simp [hcl, flattenAll_append, flattenAll_cons, flattenAll_flushB,
          flattenNode, ih [] hrest]
      | none =>
        simp [hcl, flattenAll_append, flattenAll_flushB, ih [] hrest]
    | headingIco tv dt =>
      simp [hcl, flattenAll_append, flattenAll_cons, flattenAll_flushB,
        flattenNode, ih [] hrest]
    | para c =>
      simp [hcl, flattenAll_append, flattenAll_cons, flattenAll_flushB,
        flattenNode, ih [] hrest]

/-- C10 (amended): the two block-classification implementations agree —
with PDFExport's consecutive individual bullet blocks corresponding
item-for-item to TranscriptionPanel's `BulletList` nodes (`flattenAll`)
— only on inputs where their surrounding differences are inert: the text
is non-empty, both compressor copies produce the same string, the
preview's extra backtick/emphasis sanitisation pass changes nothing, and
no compressed line is blank (PDFExport emits an empty `Paragraph` for a
blank line, the preview skips it) or a decorative separator (the preview
drops it, PDFExport classifies it).  The line classifiers themselves are
character-for-character identical. -/
theorem C10_parsers_agree (text : String)
    (hA : text ≠ "")
    (hB : pdfCompressConsecutiveSpeakers ⟨replaceCrLf text.data⟩ =
      compressConsecutiveSpeakers text)
    (hC : sanitizeAi (compressConsecutiveSpeakers text).data =
      (compressConsecutiveSpeakers text).data)
    (hD : ∀ l ∈ splitNl (compressConsecutiveSpeakers text).data,
      (trimB l).isEmpty = false ∧ isSeparator (trimB l) = false) :
    flattenAll (renderAiImprovedPreview text) = parseTranscriptionBlocks text := by
  unfold renderAiImprovedPreview parseTranscriptionBlocks
  rw [if_neg hA, hB, hC, tp_pdf_align _ [] hD]
  simp

def c10w : String := "📋 T\n👤 Konuşmacı 1 [00:01]: Merhaba\n- a\n- b\nson"

/-- C10 witness: on a heading + speaker + two-bullet + paragraph input
both parsers produce the same block sequence. -/
theorem C10_parsers_agree_witness :
    flattenAll (renderAiImprovedPreview c10w) = parseTranscriptionBlocks c10w :=
  C10_parsers_agree c10w (by decide) (by decide) (by decide) (by decide)

def c10x : String := "a\n\nb"

/-- C10 (counterexample): on `"a\n\nb"` the preview parser produces two
paragraphs while `parseTranscriptionBlocks` inserts an empty `Paragraph`
for the blank line — the two implementations are not equivalent. -/
theorem C10_implementations_differ :
    flattenAll (renderAiImprovedPreview c10x) =
      [PdfBlock.paragraphB "a", PdfBlock.paragraphB "b"] ∧
    parseTranscriptionBlocks c10x =
      [PdfBlock.paragraphB "a", PdfBlock.paragraphB "", PdfBlock.paragraphB "b"] := by
  decide


/-! ## C3 and C4: symbolic behaviour of the speaker-run compressor -/

/-- A canonical full header line `👤 Konuşmacı {id} [{t}]: {c}`. -/
def hdrLine (id t c : List Char) : List Char :=
  hdrPreL ++ id ++ (' ' :: '[' :: (t ++ (']' :: ':' :: ' ' :: c)))

/-- The continuation bullet `  • [{t}] {c}`. -/
def bulLine (t c : List Char) : List Char :=
  bulletPreL ++ ('[' :: (t ++ (']' :: ' ' :: c)))

theorem dropWhile_cons_false {p : Char → Bool} {c : Char} (t : List Char)
    (h : p c = false) : (c :: t).dropWhile p = c :: t := by
  rw [List.dropWhile_cons, if_neg (by simp [h])]

theorem dropWhile_cons_true {p : Char → Bool} {c : Char} (t : List Char)
    (h : p c = true) : (c :: t).dropWhile p = t.dropWhile p := by
  rw [List.dropWhile_cons, if_pos h]

theorem takeWhile_app_stop {p : Char → Bool} :
    ∀ (a : List Char) {c : Char} (r : List Char), (∀ x ∈ a, p x = true) →
      p c = false → (a ++ c :: r).takeWhile p = a := by
  intro a
  induction a with
  | nil =>
    intro c r _ hc
    rw [List.nil_append, List.takeWhile_cons, if_neg (by simp [hc])]
  | cons x a' ih =>
    intro c r ha hc
    rw [List.cons_append, List.takeWhile_cons,
      if_pos (ha x (List.mem_cons_self x a')),
      ih r (fun y hy => ha y (List.mem_cons_of_mem x hy)) hc]

theorem dropWhile_app_stop {p : Char → Bool} :
    ∀ (a : List Char) {c : Char} (r : List Char), (∀ x ∈ a, p x = true) →
      p c = false → (a ++ c :: r).dropWhile p = c :: r := by
  intro a
  induction a with
  | nil =>
    intro c r _ hc
    rw [List.nil_append]
    exact dropWhile_cons_false r hc
  | cons x a' ih =>
    intro c r ha hc
    rw [List.cons_append, dropWhile_cons_true _ (ha x (List.mem_cons_self x a'))]
    exact ih r (fun y hy => ha y (List.mem_cons_of_mem x hy)) hc

theorem dropWhile_eq_self {p : Char → Bool} {l : List Char}
    (h : ∀ c, l.head? = some c → p c = false) : l.dropWhile p = l := by
  cases l with
  | nil => rfl
  | cons c t => exact dropWhile_cons_false t (h c rfl)

theorem trimEndL_eq_self {l : List Char} (h2 : lastOK l = true) : trimEndL l = l := by
  unfold trimEndL
  rw [dropWhile_eq_self, List.reverse_reverse]
  intro c hc
  rw [List.head?_reverse] at hc
  unfold lastOK at h2
  rw [hc] at h2
  simpa using h2

theorem trimB_eq_self {l : List Char} (h1 : headOK l = true) (h2 : lastOK l = true) :
    trimB l = l := by
  show trimEndL (l.dropWhile isWsC) = l
  rw [dropWhile_eq_self]
  · exact trimEndL_eq_self h2
  · intro c hc
    unfold headOK at h1
    cases l with
    | nil => simp at hc
    | cons x t =>
      simp only [List.head?_cons, Option.some.injEq] at hc
      subst hc
      simpa using h1

theorem getLast?_append_right {a b : List Char} (hb : b ≠ []) :
    (a ++ b).getLast? = b.getLast? := by
  rw [List.getLast?_append]
  obtain ⟨x, t, rfl⟩ := List.exists_cons_of_ne_nil hb
  have hs : (x :: t).getLast? = some ((x :: t).getLast (by simp)) :=
    List.getLast?_eq_getLast _ _
  rw [hs]
  rfl

theorem bracketSplit_app : ∀ (t r : List Char), (∀ x ∈ t, x ≠ ']') →
    bracketSplit (t ++ ']' :: r) = some (t, r) := by
  intro t
  induction t with
  | nil =>
    intro r _
    rw [List.nil_append]
    unfold bracketSplit
    rw [if_pos rfl]
  | cons x t' ih =>
    intro r ht
    rw [List.cons_append]
    unfold bracketSplit
    rw [if_neg (ht x (List.mem_cons_self x t')),
      ih r (fun y hy => ht y (List.mem_cons_of_mem x hy))]

theorem matchCi_self_app : ∀ (p rest : List Char), matchCi p (p ++ rest) = some rest := by
  intro p
  induction p with
  | nil => intro rest; rfl
  | cons a p' ih =>
    intro rest
    rw [List.cons_append]
    unfold matchCi
    rw [if_pos rfl, ih rest]

theorem matchSpeakerHeader_canonA (d : Char) (id' t c : List Char)
    (hdig : ∀ x ∈ d :: id', x.isDigit = true)
    (ht : ∀ x ∈ t, x ≠ ']')
    (hcT : termFree c = true) (hcH : headOK c = true) :
    matchSpeakerHeader (hdrLine (d :: id') t c) = some (d :: id', some t, c) := by
  have e1 : hdrLine (d :: id') t c =
      '👤' :: (" Konuşmacı ".data ++
        ((d :: id') ++ (' ' :: '[' :: (t ++ (']' :: ':' :: ' ' :: c))))) := by
    unfold hdrLine
    rw [List.append_assoc]
    rfl
  have e2 : (" Konuşmacı ".data ++
      ((d :: id') ++ (' ' :: '[' :: (t ++ (']' :: ':' :: ' ' :: c))))).dropWhile isWsC
      = konWord ++ (' ' :: ((d :: id') ++
          (' ' :: '[' :: (t ++ (']' :: ':' :: ' ' :: c))))) := by
    rw [show " Konuşmacı ".data ++
        ((d :: id') ++ (' ' :: '[' :: (t ++ (']' :: ':' :: ' ' :: c)))) =
      ' ' :: ("Konuşmacı ".data ++
        ((d :: id') ++ (' ' :: '[' :: (t ++ (']' :: ':' :: ' ' :: c))))) from rfl]
    rw [dropWhile_cons_true _ (show isWsC ' ' = true by decide)]
    rw [show "Konuşmacı ".data ++
        ((d :: id') ++ (' ' :: '[' :: (t ++ (']' :: ':' :: ' ' :: c)))) =
      'K' :: ("onuşmacı ".data ++
        ((d :: id') ++ (' ' :: '[' :: (t ++ (']' :: ':' :: ' ' :: c))))) from rfl]
    rw [dropWhile_cons_false _ (show isWsC 'K' = false by decide)]
    rfl
  have e5 : (' ' :: ((d :: id') ++
      (' ' :: '[' :: (t ++ (']' :: ':' :: ' ' :: c))))).dropWhile isWsC
      = (d :: id') ++ (' ' :: '[' :: (t ++ (']' :: ':' :: ' ' :: c))) := by
    rw [dropWhile_cons_true _ (show isWsC ' ' = true by decide),
      show (d :: id') ++ (' ' :: '[' :: (t ++ (']' :: ':' :: ' ' :: c))) =
        d :: (id' ++ (' ' :: '[' :: (t ++ (']' :: ':' :: ' ' :: c)))) from rfl,
      dropWhile_cons_false _ (digit_nonws (hdig d (List.mem_cons_self d id')))]
  have e6 : ((d :: id') ++
      (' ' :: '[' :: (t ++ (']' :: ':' :: ' ' :: c)))).takeWhile Char.isDigit
      = d :: id' :=
    takeWhile_app_stop (d :: id') _ hdig (show Char.isDigit ' ' = false by decide)
  have e7 : ((d :: id') ++
      (' ' :: '[' :: (t ++ (']' :: ':' :: ' ' :: c)))).dropWhile Char.isDigit
      = ' ' :: '[' :: (t ++ (']' :: ':' :: ' ' :: c)) :=
    dropWhile_app_stop (d :: id') _ hdig (show Char.isDigit ' ' = false by decide)
  have e8 : (' ' :: '[' :: (t ++ (']' :: ':' :: ' ' :: c))).dropWhile isWsC
      = '[' :: (t ++ (']' :: ':' :: ' ' :: c)) := by
    rw [dropWhile_cons_true _ (show isWsC ' ' = true by decide),
      dropWhile_cons_false _ (show isWsC '[' = false by decide)]
  have e9 : bracketSplit (t ++ (']' :: ':' :: ' ' :: c)) = some (t, ':' :: ' ' :: c) :=
    bracketSplit_app t _ ht
  have e10 : (' ' :: c).dropWhile isWsC = c := by
    rw [dropWhile_cons_true _ (show isWsC ' ' = true by decide)]
    exact dropWhile_eq_self (fun x hx => by
      unfold headOK at hcH
      cases c with
      | nil => simp at hx
      | cons y c' =>
        simp only [List.head?_cons, Option.some.injEq] at hx
        subst hx
        simpa using hcH)
  unfold matchSpeakerHeader dropIcon
  rw [e1]
  simp only [List.head?_cons, reduceIte, e2, matchCi_self_app, e5, e6, e7, e8, e9, e10,
    List.isEmpty_cons, Bool.false_eq_true, if_false, hcT, if_true]

/-- The header with the same id and empty time and content:
`👤 Konuşmacı {id}:`. -/
def hdrEmpty (id : List Char) : List Char := hdrPreL ++ id ++ [':']

theorem matchSpeakerHeader_canonB (d : Char) (id' : List Char)
    (hdig : ∀ x ∈ d :: id', x.isDigit = true) :
    matchSpeakerHeader (hdrEmpty (d :: id')) = some (d :: id', none, []) := by
  have e1 : hdrEmpty (d :: id') =
      '👤' :: (" Konuşmacı ".data ++ ((d :: id') ++ [':'])) := by
    unfold hdrEmpty
    rw [List.append_assoc]
    rfl
  have e2 : (" Konuşmacı ".data ++ ((d :: id') ++ [':'])).dropWhile isWsC
      = konWord ++ (' ' :: ((d :: id') ++ [':'])) := by
    rw [show " Konuşmacı ".data ++ ((d :: id') ++ [':']) =
      ' ' :: ("Konuşmacı ".data ++ ((d :: id') ++ [':'])) from rfl]
    rw [dropWhile_cons_true _ (show isWsC ' ' = true by decide)]
    rw [show "Konuşmacı ".data ++ ((d :: id') ++ [':']) =
      'K' :: ("onuşmacı ".data ++ ((d :: id') ++ [':'])) from rfl]
    rw [dropWhile_cons_false _ (show isWsC 'K' = false by decide)]
    rfl
  have e5 : (' ' :: ((d :: id') ++ [':'])).dropWhile isWsC = (d :: id') ++ [':'] := by
    rw [dropWhile_cons_true _ (show isWsC ' ' = true by decide),
      show (d :: id') ++ [':'] = d :: (id' ++ [':']) from rfl,
      dropWhile_cons_false _ (digit_nonws (hdig d (List.mem_cons_self d id')))]
  have e6 : ((d :: id') ++ [':']).takeWhile Char.isDigit = d :: id' :=
    takeWhile_app_stop (d :: id') _ hdig (show Char.isDigit ':' = false by decide)
  have e7 : ((d :: id') ++ [':']).dropWhile Char.isDigit = [':'] :=
    dropWhile_app_stop (d :: id') _ hdig (show Char.isDigit ':' = false by decide)
  have e8 : ([':'] : List Char).dropWhile isWsC = [':'] :=
    dropWhile_cons_false _ (show isWsC ':' = false by decide)
  unfold matchSpeakerHeader dropIcon
  rw [e1]
  simp only [List.head?_cons, reduceIte, e2, matchCi_self_app, e5, e6, e7, e8,
    List.isEmpty_cons, Bool.false_eq_true, if_false]
  rfl

theorem getLast?_cons_ne {x : Char} {l : List Char} (h : l ≠ []) :
    (x :: l).getLast? = l.getLast? := by
  have := @getLast?_append_right [x] l h
  exact this

theorem hdr_headOK (id t c : List Char) : headOK (hdrLine id t c) = true := by
  have e : headOK (hdrLine id t c) = !isWsC '👤' := rfl
  rw [e]
  decide

theorem hdr_lastOK (id t c : List Char) (hc : c ≠ []) (hcL : lastOK c = true) :
    lastOK (hdrLine id t c) = true := by
  unfold lastOK at hcL ⊢
  unfold hdrLine
  rw [getLast?_append_right (by simp : (' ' :: '[' :: (t ++ (']' :: ':' :: ' ' :: c))) ≠ []),
    getLast?_cons_ne (by simp), getLast?_cons_ne (by simp),
    getLast?_append_right (by simp : (']' :: ':' :: ' ' :: c) ≠ []),
    getLast?_cons_ne (by simp), getLast?_cons_ne (by simp), getLast?_cons_ne hc]
  exact hcL

theorem hdrEmpty_lastOK (id : List Char) : lastOK (hdrEmpty id) = true := by
  unfold lastOK hdrEmpty
  rw [getLast?_append_right (by simp : ([':'] : List Char) ≠ [])]
  decide

theorem hdrEmpty_headOK (id : List Char) : headOK (hdrEmpty id) = true := by
  have e : headOK (hdrEmpty id) = !isWsC '👤' := rfl
  rw [e]
  decide

theorem isEmpty_false_of_ne {l : List Char} (h : l ≠ []) : l.isEmpty = false := by
  cases l with
  | nil => exact absurd rfl h
  | cons a b => rfl

theorem trimB_of_all_nonws {t : List Char} (ht : ∀ x ∈ t, isWsC x = false) :
    trimB t = t := by
  apply trimB_eq_self
  · cases t with
    | nil => rfl
    | cons a b => simp [headOK, ht a (List.mem_cons_self a b)]
  · unfold lastOK
    cases hg : t.getLast? with
    | none => rfl
    | some y =>
      have hne : t ≠ [] := by
        intro he
        rw [he] at hg
        simp at hg
      rw [List.getLast?_eq_getLast t hne] at hg
      have : y ∈ t := by
        have hm := List.getLast_mem hne
        simp only [Option.some.injEq] at hg
        rw [hg] at hm
        exact hm
      simp [ht y this]

theorem compressLineCore_newSpeaker (de : Bool) (last : Option (List Char))
    (d : Char) (id' t c : List Char)
    (hdig : ∀ x ∈ d :: id', x.isDigit = true)
    (ht : ∀ x ∈ t, isWsC x = false ∧ x ≠ ']') (htne : t ≠ [])
    (hcne : c ≠ []) (hcT : termFree c = true) (hcH : headOK c = true)
    (hcL : lastOK c = true)
    (hlast : last ≠ some (d :: id')) :
    compressLineCore de last (hdrLine (d :: id') t c) =
      ([hdrLine (d :: id') t c], some (d :: id')) := by
  have htr : trimB (hdrLine (d :: id') t c) = hdrLine (d :: id') t c :=
    trimB_eq_self (hdr_headOK _ _ _) (hdr_lastOK _ _ _ hcne hcL)
  have hE : (hdrLine (d :: id') t c).isEmpty = false := rfl
  have hmsh := matchSpeakerHeader_canonA d id' t c hdig (fun x hx => (ht x hx).2) hcT hcH
  have htB : trimB t = t := trimB_of_all_nonws (fun x hx => (ht x hx).1)
  have htE : t.isEmpty = false := isEmpty_false_of_ne htne
  have hcB : trimB c = c := trimB_eq_self hcH hcL
  have hcE : c.isEmpty = false := isEmpty_false_of_ne hcne
  unfold compressLineCore
  rw [htr]
  simp only [hE, Bool.false_eq_true, if_false, hmsh, htB, htE, hcB, hcE, if_neg hlast]
  have hl : hdrPreL ++ d :: id' ++ (' ' :: '[' :: t ++ [']']) ++ [':'] ++ ' ' :: c
      = hdrLine (d :: id') t c := by
    simp [hdrLine, List.append_assoc]
  rw [hl, htr]

theorem compressLineCore_sameSpeaker (de : Bool) (d : Char) (id' t c : List Char)
    (hdig : ∀ x ∈ d :: id', x.isDigit = true)
    (ht : ∀ x ∈ t, isWsC x = false ∧ x ≠ ']') (htne : t ≠ [])
    (hcne : c ≠ []) (hcT : termFree c = true) (hcH : headOK c = true)
    (hcL : lastOK c = true) :
    compressLineCore de (some (d :: id')) (hdrLine (d :: id') t c) =
      ([bulLine t c], some (d :: id')) := by
  have htr : trimB (hdrLine (d :: id') t c) = hdrLine (d :: id') t c :=
    trimB_eq_self (hdr_headOK _ _ _) (hdr_lastOK _ _ _ hcne hcL)
  have hE : (hdrLine (d :: id') t c).isEmpty = false := rfl
  have hmsh := matchSpeakerHeader_canonA d id' t c hdig (fun x hx => (ht x hx).2) hcT hcH
  have htB : trimB t = t := trimB_of_all_nonws (fun x hx => (ht x hx).1)
  have htE : t.isEmpty = false := isEmpty_false_of_ne htne
  have hcB : trimB c = c := trimB_eq_self hcH hcL
  have hcE : c.isEmpty = false := isEmpty_false_of_ne hcne
  unfold compressLineCore
  rw [htr]
  simp only [hE, Bool.false_eq_true, if_false, hmsh, htB, htE, hcB, hcE, if_pos rfl]
  simp [joinSp, bulLine, List.append_assoc]

theorem compressLineCore_emptySame (de : Bool) (d : Char) (id' : List Char)
    (hdig : ∀ x ∈ d :: id', x.isDigit = true) :
    compressLineCore de (some (d :: id')) (hdrEmpty (d :: id')) =
      ((if de then [] else [[]]), some (d :: id')) := by
  have htr : trimB (hdrEmpty (d :: id')) = hdrEmpty (d :: id') :=
    trimB_eq_self (hdrEmpty_headOK _) (hdrEmpty_lastOK _)
  have hE : (hdrEmpty (d :: id')).isEmpty = false := rfl
  have hmsh := matchSpeakerHeader_canonB d id' hdig
  unfold compressLineCore
  rw [htr]
  simp only [hE, Bool.false_eq_true, if_false, hmsh, if_pos rfl]
  rfl

theorem splitNl_ne_nil : ∀ s : List Char, splitNl s ≠ [] := by
  intro s
  cases s with
  | nil => simp [splitNl]
  | cons c t =>
    unfold splitNl
    split
    · simp
    · split <;> simp

theorem splitNl_nlFree {a : List Char} (h : ∀ x ∈ a, x ≠ '\n') : splitNl a = [a] := by
  induction a with
  | nil => rfl
  | cons c t ih =>
    conv_lhs => unfold splitNl
    rw [if_neg (h c (List.mem_cons_self c t))]
    rw [ih (fun x hx => h x (List.mem_cons_of_mem c hx))]

theorem splitNl_app {a : List Char} (h : ∀ x ∈ a, x ≠ '\n') (b : List Char) :
    splitNl (a ++ '\n' :: b) = a :: splitNl b := by
  induction a with
  | nil =>
    rw [List.nil_append]
    conv_lhs => unfold splitNl
    rw [if_pos rfl]
  | cons c t ih =>
    rw [List.cons_append]
    conv_lhs => unfold splitNl
    rw [if_neg (h c (List.mem_cons_self c t))]
    rw [ih (fun x hx => h x (List.mem_cons_of_mem c hx))]

theorem nonws_ne_nl {x : Char} (h : isWsC x = false) : x ≠ '\n' := by
  intro he
  subst he
  exact absurd h (by decide)

theorem hdrLine_cons (id t c : List Char) : hdrLine id t c =
    '👤' :: (" Konuşmacı ".data ++
      (id ++ (' ' :: '[' :: (t ++ (']' :: ':' :: ' ' :: c))))) := by
  unfold hdrLine
  rw [List.append_assoc]
  rfl

theorem bulLine_cons (t c : List Char) : bulLine t c =
    ' ' :: (" • ".data ++ ('[' :: (t ++ (']' :: ' ' :: c)))) := rfl

theorem termFree_ne_nl {c : List Char} (h : termFree c = true) :
    ∀ x ∈ c, x ≠ '\n' := by
  intro x hx he
  subst he
  unfold termFree at h
  rw [List.all_eq_true] at h
  have := h _ hx
  exact absurd this (by decide)

theorem hdr_nlFree {id t c : List Char}
    (hid : ∀ x ∈ id, x.isDigit = true)
    (ht : ∀ x ∈ t, isWsC x = false)
    (hc : termFree c = true) :
    ∀ x ∈ hdrLine id t c, x ≠ '\n' := by
  intro x hx
  unfold hdrLine at hx
  simp only [List.append_assoc, List.mem_append, List.mem_cons] at hx
  rcases hx with hx | hx | rfl | rfl | hx | rfl | rfl | rfl | hx
  · revert hx
    have : ∀ y ∈ hdrPreL, y ≠ '\n' := by decide
    exact fun hx => this x hx
  · exact nonws_ne_nl (digit_nonws (hid x hx))
  · decide
  · decide
  · exact nonws_ne_nl (ht x hx)
  · decide
  · decide
  · decide
  · exact termFree_ne_nl hc x hx

theorem bul_nlFree {t c : List Char}
    (ht : ∀ x ∈ t, isWsC x = false)
    (hc : termFree c = true) :
    ∀ x ∈ bulLine t c, x ≠ '\n' := by
  intro x hx
  unfold bulLine at hx
  simp only [List.append_assoc, List.mem_append, List.mem_cons] at hx
  rcases hx with hx | rfl | hx | rfl | rfl | hx
  · revert hx
    have : ∀ y ∈ bulletPreL, y ≠ '\n' := by decide
    exact fun hx => this x hx
  · decide
  · exact nonws_ne_nl (ht x hx)
  · decide
  · decide
  · exact termFree_ne_nl hc x hx

theorem collapse_skip : ∀ (a b : List Char), (∀ x ∈ a, x ≠ '\n') →
    collapseNlAux 0 (a ++ b) = a ++ collapseNlAux 0 b := by
  intro a
  induction a with
  | nil => intro b _; rfl
  | cons c a' ih =>
    intro b h
    rw [List.cons_append, collapseNlAux_cons_ne 0 _ (h c (List.mem_cons_self c a')),
      ih b (fun x hx => h x (List.mem_cons_of_mem c hx))]
    rfl

theorem collapse_id {a : List Char} (h : ∀ x ∈ a, x ≠ '\n') :
    collapseNlAux 0 a = a := by
  have := collapse_skip a [] h
  have h2 : collapseNlAux 0 ([] : List Char) = [] := rfl
  rw [h2, List.append_nil] at this
  exact this

theorem collapse_nl (b : List Char) (hb : b.head? ≠ some '\n') :
    collapseNlAux 0 ('\n' :: b) = '\n' :: collapseNlAux 0 b := by
  rw [collapseNlAux_cons_nl]
  cases b with
  | nil => rfl
  | cons x b' =>
    have hx : x ≠ '\n' := fun he => hb (by rw [he]; rfl)
    rw [collapseNlAux_cons_ne 1 _ hx, collapseNlAux_cons_ne 0 _ hx]
    rfl

/-- No line-start position of the string (the flag says whether the
current position is a line start) matches the bullet-only-line pattern. -/
def noBul : Bool → List Char → Bool
  | _, [] => true
  | true, c :: t => (bulletArm (c :: t)).isNone && noBul (c = '\n') t
  | false, c :: t => noBul (c = '\n') t

theorem noBul_false_skip : ∀ (a b : List Char), (∀ x ∈ a, x ≠ '\n') →
    noBul false (a ++ b) = noBul false b := by
  intro a
  induction a with
  | nil => intro b _; rfl
  | cons c a' ih =>
    intro b h
    rw [List.cons_append]
    have e : noBul false (c :: (a' ++ b)) = noBul (c = '\n') (a' ++ b) := rfl
    rw [e, decide_eq_false (h c (List.mem_cons_self c a'))]
    exact ih b (fun x hx => h x (List.mem_cons_of_mem c hx))

theorem noBul_false_nl (b : List Char) : noBul false ('\n' :: b) = noBul true b := rfl

theorem noBul_true_cons {c : Char} {t : List Char}
    (hba : bulletArm (c :: t) = none) (hc : c ≠ '\n') :
    noBul true (c :: t) = noBul false t := by
  have e : noBul true (c :: t)
      = ((bulletArm (c :: t)).isNone && noBul (c = '\n') t) := rfl
  rw [e, hba, decide_eq_false hc]
  rfl

theorem brAuxF_id : ∀ (fuel : Nat) (b : Bool) (s : List Char),
    noBul b s = true → brAuxF fuel b s = s := by
  intro fuel
  induction fuel with
  | zero => intro b s _; rfl
  | succ f ih =>
    intro b s h
    cases s with
    | nil => exact brAuxF_nil _ _
    | cons c t =>
      cases b with
      | true =>
        have e : noBul true (c :: t)
            = ((bulletArm (c :: t)).isNone && noBul (c = '\n') t) := rfl
        rw [e, Bool.and_eq_true] at h
        obtain ⟨h1, h2⟩ := h
        have hba : bulletArm (c :: t) = none := by
          cases hb : bulletArm (c :: t) with
          | none => rfl
          | some v =>
            rw [hb] at h1
            simp at h1
        rw [brAuxF_true_arm_none f hba, ih _ t h2]
      | false =>
        have e : noBul false (c :: t) = noBul (c = '\n') t := rfl
        rw [e] at h
        rw [brAuxF_false, ih _ t h]

theorem bulletRemove_id {s : List Char} (h : noBul true s = true) :
    bulletRemove s = s :=
  brAuxF_id s.length true s h

theorem bulletArm_hdr_app (id t c r : List Char) :
    bulletArm (hdrLine id t c ++ r) = none := rfl

theorem bulletArm_hdr (id t c : List Char) : bulletArm (hdrLine id t c) = none := rfl

theorem bulletArm_bul_app (t c r : List Char) :
    bulletArm (bulLine t c ++ r) = none := rfl

theorem bulletArm_hdrEmpty_app (id r : List Char) :
    bulletArm (hdrEmpty id ++ r) = none := rfl

theorem noBul_hdr_app (id t c X : List Char)
    (hnl : ∀ x ∈ hdrLine id t c, x ≠ '\n') (hX : noBul false X = true) :
    noBul true (hdrLine id t c ++ X) = true := by
  have e1 : hdrLine id t c ++ X = '👤' :: ((" Konuşmacı ".data ++
      (id ++ (' ' :: '[' :: (t ++ (']' :: ':' :: ' ' :: c))))) ++ X) := by
    rw [hdrLine_cons, List.cons_append]
  have hba := bulletArm_hdr_app id t c X
  rw [e1] at hba
  rw [e1, noBul_true_cons hba (by decide)]
  rw [noBul_false_skip _ X
    (fun x hx => hnl x (by rw [hdrLine_cons]; exact List.mem_cons_of_mem _ hx))]
  exact hX

theorem noBul_hdr_term (id t c : List Char)
    (hnl : ∀ x ∈ hdrLine id t c, x ≠ '\n') :
    noBul true (hdrLine id t c) = true := by
  have := noBul_hdr_app id t c [] hnl rfl
  rwa [List.append_nil] at this

theorem noBul_bul_app (t c X : List Char)
    (hnl : ∀ x ∈ bulLine t c, x ≠ '\n') (hX : noBul false X = true) :
    noBul true (bulLine t c ++ X) = true := by
  have e1 : bulLine t c ++ X = ' ' :: ((" • ".data ++
      ('[' :: (t ++ (']' :: ' ' :: c)))) ++ X) := by
    rw [bulLine_cons, List.cons_append]
  have hba := bulletArm_bul_app t c X
  rw [e1] at hba
  rw [e1, noBul_true_cons hba (by decide)]
  rw [noBul_false_skip _ X
    (fun x hx => hnl x (by rw [bulLine_cons]; exact List.mem_cons_of_mem _ hx))]
  exact hX

/-- C3 (amended): on canonical speaker-header lines the compressor emits
the first header of a run unchanged, rewrites the following same-speaker
header into the indented continuation bullet `  • [time] content` with
the header omitted, and emits a header with a different id as a full
header line, carrying that id on (so the claim's update of
`lastSpeakerId` is visible in the third line).  The claim's further
assertion that the first line is emitted *unchanged* holds only for
canonical lines such as these: the emitted line is rebuilt from the
captured groups, so a non-canonical header (e.g. without the `👤` icon)
is rewritten even when it opens a run. -/
theorem C3_run_compression (d1 d2 : Char) (id1' id2' t1 t2 t3 c1 c2 c3 : List Char)
    (hd1 : ∀ x ∈ d1 :: id1', x.isDigit = true)
    (hd2 : ∀ x ∈ d2 :: id2', x.isDigit = true)
    (hne : d1 :: id1' ≠ d2 :: id2')
    (ht1 : ∀ x ∈ t1, isWsC x = false ∧ x ≠ ']') (ht1n : t1 ≠ [])
    (ht2 : ∀ x ∈ t2, isWsC x = false ∧ x ≠ ']') (ht2n : t2 ≠ [])
    (ht3 : ∀ x ∈ t3, isWsC x = false ∧ x ≠ ']') (ht3n : t3 ≠ [])
    (hc1n : c1 ≠ []) (hc1T : termFree c1 = true)
    (hc1H : headOK c1 = true) (hc1L : lastOK c1 = true)
    (hc2n : c2 ≠ []) (hc2T : termFree c2 = true)
    (hc2H : headOK c2 = true) (hc2L : lastOK c2 = true)
    (hc3n : c3 ≠ []) (hc3T : termFree c3 = true)
    (hc3H : headOK c3 = true) (hc3L : lastOK c3 = true) :
    compressConsecutiveSpeakers ⟨joinNl [hdrLine (d1 :: id1') t1 c1,
        hdrLine (d1 :: id1') t2 c2, hdrLine (d2 :: id2') t3 c3]⟩
      = ⟨joinNl [hdrLine (d1 :: id1') t1 c1, bulLine t2 c2,
          hdrLine (d2 :: id2') t3 c3]⟩ := by
  have nl1 : ∀ x ∈ hdrLine (d1 :: id1') t1 c1, x ≠ '\n' :=
    hdr_nlFree hd1 (fun x hx => (ht1 x hx).1) hc1T
  have nl2 : ∀ x ∈ hdrLine (d1 :: id1') t2 c2, x ≠ '\n' :=
    hdr_nlFree hd1 (fun x hx => (ht2 x hx).1) hc2T
  have nl3 : ∀ x ∈ hdrLine (d2 :: id2') t3 c3, x ≠ '\n' :=
    hdr_nlFree hd2 (fun x hx => (ht3 x hx).1) hc3T
  have nlB : ∀ x ∈ bulLine t2 c2, x ≠ '\n' :=
    bul_nlFree (fun x hx => (ht2 x hx).1) hc2T
  unfold compressConsecutiveSpeakers compressCoreStr
  refine congrArg String.mk ?_
  rw [show (String.mk (joinNl [hdrLine (d1 :: id1') t1 c1,
      hdrLine (d1 :: id1') t2 c2, hdrLine (d2 :: id2') t3 c3])).data
    = joinNl [hdrLine (d1 :: id1') t1 c1, hdrLine (d1 :: id1') t2 c2,
        hdrLine (d2 :: id2') t3 c3] from rfl]
  rw [show joinNl [hdrLine (d1 :: id1') t1 c1, hdrLine (d1 :: id1') t2 c2,
      hdrLine (d2 :: id2') t3 c3]
    = hdrLine (d1 :: id1') t1 c1 ++ '\n' :: (hdrLine (d1 :: id1') t2 c2
        ++ '\n' :: hdrLine (d2 :: id2') t3 c3) from rfl]
  rw [splitNl_app nl1, splitNl_app nl2, splitNl_nlFree nl3]
  have s1 := compressLineCore_newSpeaker false none d1 id1' t1 c1 hd1 ht1 ht1n
    hc1n hc1T hc1H hc1L (by simp)
  have s2 := compressLineCore_sameSpeaker false d1 id1' t2 c2 hd1 ht2 ht2n
    hc2n hc2T hc2H hc2L
  have s3 := compressLineCore_newSpeaker false (some (d1 :: id1')) d2 id2' t3 c3
    hd2 ht3 ht3n hc3n hc3T hc3H hc3L (fun h => hne (Option.some.inj h))
  simp only [compressLines, s1, s2, s3]
  rw [show joinNl ([hdrLine (d1 :: id1') t1 c1] ++ ([bulLine t2 c2]
      ++ ([hdrLine (d2 :: id2') t3 c3] ++ [])))
    = hdrLine (d1 :: id1') t1 c1 ++ '\n' :: (bulLine t2 c2
        ++ '\n' :: hdrLine (d2 :: id2') t3 c3) from rfl]
  unfold postPass
  unfold collapseNl
  rw [collapse_skip _ _ nl1]
  rw [collapse_nl _ (by
    intro h
    rw [show (bulLine t2 c2 ++ '\n' :: hdrLine (d2 :: id2') t3 c3).head?
      = some ' ' from rfl] at h
    exact absurd h (by decide))]
  rw [collapse_skip _ _ nlB]
  rw [collapse_nl _ (by
    intro h
    rw [show (hdrLine (d2 :: id2') t3 c3).head? = some '👤' from rfl] at h
    exact absurd h (by decide))]
  rw [collapse_id nl3]
  have hnb : noBul true (hdrLine (d1 :: id1') t1 c1 ++ '\n' :: (bulLine t2 c2
      ++ '\n' :: hdrLine (d2 :: id2') t3 c3)) = true := by
    rw [noBul_hdr_app _ _ _ _ nl1]
    rw [noBul_false_nl]
    rw [noBul_bul_app _ _ _ nlB]
    rw [noBul_false_nl]
    exact noBul_hdr_term _ _ _ nl3
  rw [bulletRemove_id hnb]
  have hL3ne : hdrLine (d2 :: id2') t3 c3 ≠ [] := by
    rw [hdrLine_cons]
    simp
  have hlast : lastOK (hdrLine (d1 :: id1') t1 c1 ++ '\n' :: (bulLine t2 c2
      ++ '\n' :: hdrLine (d2 :: id2') t3 c3)) = true := by
    unfold lastOK
    rw [getLast?_append_right (by simp), getLast?_cons_ne (by simp),
      getLast?_append_right (by simp), getLast?_cons_ne hL3ne]
    have := hdr_lastOK (d2 :: id2') t3 c3 hc3n hc3L
    unfold lastOK at this
    exact this
  rw [trimEndL_eq_self hlast]
  rfl

/-- C3 witness: the run compression on the spec's example, extended with
a third line whose speaker differs. -/
theorem C3_run_compression_witness :
    compressConsecutiveSpeakers ⟨joinNl [hdrLine ['1'] "00:00".data "Merhaba".data,
        hdrLine ['1'] "00:05".data "Nasılsın".data,
        hdrLine ['2'] "00:07".data "Devam".data]⟩
      = ⟨joinNl [hdrLine ['1'] "00:00".data "Merhaba".data,
          bulLine "00:05".data "Nasılsın".data,
          hdrLine ['2'] "00:07".data "Devam".data]⟩ :=
  C3_run_compression '1' '2' [] [] "00:00".data "00:05".data "00:07".data
    "Merhaba".data "Nasılsın".data "Devam".data
    (by decide) (by decide) (by decide) (by decide) (by decide) (by decide)
    (by decide) (by decide) (by decide) (by decide) (by decide) (by decide)
    (by decide) (by decide) (by decide) (by decide) (by decide) (by decide)
    (by decide) (by decide) (by decide)

def c3x : String := "Konuşmacı 1: a\nKonuşmacı 1: b"

/-- C3 (counterexample): a consecutive same-speaker run whose first
header lacks the `👤` icon — the header regex still matches (the icon is
optional), but the compressor emits the rebuilt canonical line
`👤 Konuşmacı 1: a` instead of the first line unchanged. -/
theorem C3_first_line_changed :
    compressConsecutiveSpeakers c3x = "👤 Konuşmacı 1: a\n  • b" ∧
      (splitNl (compressConsecutiveSpeakers c3x).data).head?
        ≠ (splitNl c3x.data).head? := by decide

/-- C4 (amended): for a same-speaker header with empty time and empty
content, only the PDFExport copy of the compressor emits nothing; the
TranscriptionPanel copy pushes an empty line (which survives as a blank
line in its output). -/
theorem C4_empty_same_speaker (d : Char) (id' : List Char)
    (hdig : ∀ x ∈ d :: id', x.isDigit = true) :
    compressLineCore true (some (d :: id')) (hdrEmpty (d :: id'))
        = ([], some (d :: id')) ∧
      compressLineCore false (some (d :: id')) (hdrEmpty (d :: id'))
        = ([[]], some (d :: id')) :=
  ⟨compressLineCore_emptySame true d id' hdig,
    compressLineCore_emptySame false d id' hdig⟩

/-- C4 witness: the two copies on the header `👤 Konuşmacı 3:`. -/
theorem C4_empty_same_speaker_witness :
    compressLineCore true (some ['3']) (hdrEmpty ['3']) = ([], some ['3']) ∧
      compressLineCore false (some ['3']) (hdrEmpty ['3']) = ([[]], some ['3']) :=
  C4_empty_same_speaker '3' [] (by decide)

def c4x : String := "👤 Konuşmacı 1: a\n👤 Konuşmacı 1:\n👤 Konuşmacı 1: b"

/-- C4 (counterexample): on a same-speaker header with empty time and
content the TranscriptionPanel compressor leaves a blank line in its
output while the PDFExport copy emits nothing for that line. -/
theorem C4_tp_pushes_blank :
    compressConsecutiveSpeakers c4x = "👤 Konuşmacı 1: a\n\n  • b" ∧
      pdfCompressConsecutiveSpeakers c4x = "👤 Konuşmacı 1: a\n  • b" := by
  decide


/-! ## C6: the full contract of the timestamp rewrite -/

/-- No `[` position inside `pre` starts a match of the timestamp
pattern, where the text following `pre` is `r` (candidate matches at a
bracket in `pre` are checked against the full remainder of the string,
so this is exactly "the leftmost match does not lie in `pre`"). -/
def noTsBefore (pre r : List Char) : Bool :=
  match pre with
  | [] => true
  | c :: t => (if c = '[' then (tryTs (t ++ r)).isNone else true) && noTsBefore t r

theorem tryTs_some_full {u m sec rest : List Char}
    (h : tryTs u = some (m, sec, rest)) :
    u = m ++ '.' :: (sec ++ ']' :: rest) ∧ m.all Char.isDigit = true ∧
      (m.length = 1 ∨ m.length = 2) ∧ sec.all Char.isDigit = true ∧
      sec.length = 2 := by
  unfold tryTs at h
  split at h
  · split at h
    · next hcond =>
      simp only [Bool.and_eq_true, decide_eq_true_eq] at hcond
      obtain ⟨⟨⟨⟨⟨ha, hb⟩, hc⟩, hd⟩, he⟩, hf⟩ := hcond
      have h' := Option.some.inj h
      injection h' with h1 h'
      injection h' with h2 h3
      subst h1
      subst h2
      subst h3
      subst hc
      subst hf
      exact ⟨rfl, by simp [ha, hb], Or.inr rfl, by simp [hd, he], rfl⟩
    · split at h
      · next hcond =>
        simp only [Bool.and_eq_true, decide_eq_true_eq] at hcond
        obtain ⟨⟨⟨⟨ha, hb⟩, hc⟩, hd⟩, he⟩ := hcond
        have h' := Option.some.inj h
        injection h' with h1 h'
        injection h' with h2 h3
        subst h1
        subst h2
        subst h3
        subst hb
        subst he
        exact ⟨rfl, by simp [ha], Or.inl rfl, by simp [hc, hd], rfl⟩
      · simp at h
  · split at h
    · next hcond =>
      simp only [Bool.and_eq_true, decide_eq_true_eq] at hcond
      obtain ⟨⟨⟨⟨ha, hb⟩, hc⟩, hd⟩, he⟩ := hcond
      have h' := Option.some.inj h
      injection h' with h1 h'
      injection h' with h2 h3
      subst h1
      subst h2
      subst h3
      subst hb
      subst he
      exact ⟨rfl, by simp [ha], Or.inl rfl, by simp [hc, hd], rfl⟩
    · simp at h
  · simp at h

theorem tsScanF_append_noMatch : ∀ (u r : List Char) (f : Nat),
    noTsBefore u r = true → u.length + r.length ≤ f →
    tsScanF f (u ++ r) = u ++ tsScanF (f - u.length) r := by
  intro u
  induction u with
  | nil => intro r f _ _; simp
  | cons c u' ih =>
    intro r f hu hf
    have e : noTsBefore (c :: u') r
        = ((if c = '[' then (tryTs (u' ++ r)).isNone else true)
            && noTsBefore u' r) := rfl
    rw [e, Bool.and_eq_true] at hu
    simp only [List.length_cons] at hf
    obtain ⟨f', rfl⟩ : ∃ f', f = f' + 1 := by
      cases f
      · omega
      · exact ⟨_, rfl⟩
    rw [List.cons_append]
    by_cases hc : c = '['
    · subst hc
      have htry : tryTs (u' ++ r) = none := by
        have h1 := hu.1
        rw [if_pos rfl] at h1
        cases htt : tryTs (u' ++ r) with
        | none => rfl
        | some v =>
          rw [htt] at h1
          simp at h1
      rw [tsScanF_cons_none f' htry,
        ih r f' hu.2 (by omega)]
      have hfe : f' + 1 - (('[' : Char) :: u').length = f' - u'.length := by
        simp only [List.length_cons]
        omega
      rw [hfe]
      simp
    · rw [tsScanF_cons_ne f' _ hc, ih r f' hu.2 (by omega)]
      have hfe : f' + 1 - (c :: u').length = f' - u'.length := by
        simp only [List.length_cons]
        omega
      rw [hfe]
      simp

theorem hasTs_decomp : ∀ s : List Char, hasTs s = true →
    ∃ pre m sec post, s = pre ++ '[' :: (m ++ '.' :: (sec ++ ']' :: post)) ∧
      noTsBefore pre ('[' :: (m ++ '.' :: (sec ++ ']' :: post))) = true ∧
      m.all Char.isDigit = true ∧ (m.length = 1 ∨ m.length = 2) ∧
      sec.all Char.isDigit = true ∧ sec.length = 2 := by
  intro s
  induction s with
  | nil => intro h; simp [hasTs] at h
  | cons c t ih =>
    intro h
    by_cases hmatch : c = '[' ∧ (tryTs t).isSome = true
    · obtain ⟨rfl, hsome⟩ := hmatch
      obtain ⟨⟨m, sec, rest⟩, hsome2⟩ := Option.isSome_iff_exists.mp hsome
      obtain ⟨hshape, hm, hml, hsec, hsl⟩ := tryTs_some_full hsome2
      refine ⟨[], m, sec, rest, ?_, rfl, hm, hml, hsec, hsl⟩
      rw [List.nil_append, hshape]
    · have ht : hasTs t = true := by
        have e : hasTs (c :: t) = ((c = '[' && (tryTs t).isSome) || hasTs t) := rfl
        rw [e, Bool.or_eq_true] at h
        rcases h with h | h
        · exfalso
          rw [Bool.and_eq_true] at h
          exact hmatch ⟨by simpa using h.1, h.2⟩
        · exact h
      obtain ⟨pre, m, sec, post, hdec, hnb, hm, hml, hsec, hsl⟩ := ih ht
      refine ⟨c :: pre, m, sec, post, ?_, ?_, hm, hml, hsec, hsl⟩
      · rw [List.cons_append, ← hdec]
      · have e : noTsBefore (c :: pre) ('[' :: (m ++ '.' :: (sec ++ ']' :: post)))
            = ((if c = '[' then
                  (tryTs (pre ++ '[' :: (m ++ '.' :: (sec ++ ']' :: post)))).isNone
                else true)
              && noTsBefore pre ('[' :: (m ++ '.' :: (sec ++ ']' :: post)))) := rfl
        rw [e, Bool.and_eq_true]
        refine ⟨?_, hnb⟩
        by_cases hc : c = '['
        · rw [if_pos hc, ← hdec]
          cases htt : tryTs t with
          | none => rfl
          | some v =>
            exfalso
            exact hmatch ⟨hc, by rw [htt]; rfl⟩
        · rw [if_neg hc]

/-- C6: the timestamp normalizer (the `withNormalizedTimes` replace of
`normalizeGeminiTimestamps`) rewrites every bracketed occurrence of a
1–2 digit minute, a literal dot and an exactly 2-digit second into
`[mm:ss]` with the minute zero-padded, and leaves every string without
such an occurrence — including already-colon-separated timestamps and
malformed bracket contents — entirely unchanged, with no error
condition (the function is total).  The three parts cover every input:
(1) no occurrence anywhere means identity; (2) at the leftmost
occurrence (`noTsBefore`: no earlier bracket starts a match, even when
earlier non-matching brackets are present) the prefix passes through
unchanged, the occurrence is rewritten, and the scan continues on the
suffix; (3) every string with an occurrence decomposes as in (2). -/
theorem C6_timestamp_rewrite_contract :
    (∀ s : String, hasTs s.data = false → normalizeTimestampsStage s = s) ∧
    (∀ pre m sec post : List Char,
      noTsBefore pre ('[' :: (m ++ '.' :: (sec ++ ']' :: post))) = true →
      m.all Char.isDigit = true → (m.length = 1 ∨ m.length = 2) →
      sec.all Char.isDigit = true → sec.length = 2 →
      tsScan (pre ++ '[' :: (m ++ '.' :: (sec ++ ']' :: post))) =
        pre ++ '[' :: (padMin m ++ ':' :: (sec ++ ']' :: tsScan post))) ∧
    (∀ s : List Char, hasTs s = true →
      ∃ pre m sec post, s = pre ++ '[' :: (m ++ '.' :: (sec ++ ']' :: post)) ∧
        noTsBefore pre ('[' :: (m ++ '.' :: (sec ++ ']' :: post))) = true ∧
        m.all Char.isDigit = true ∧ (m.length = 1 ∨ m.length = 2) ∧
        sec.all Char.isDigit = true ∧ sec.length = 2) := by
  refine ⟨?_, ?_, hasTs_decomp⟩
  · intro s hs
    unfold normalizeTimestampsStage tsScan
    rw [tsScanF_id_of_noTs _ _ hs]
  · intro pre m sec post hpre hm hml hsec hsl
    unfold tsScan
    rw [tsScanF_append_noMatch pre _ _ hpre (by simp)]
    have hfe : (pre ++ '[' :: (m ++ '.' :: (sec ++ ']' :: post))).length - pre.length
        = (m ++ '.' :: (sec ++ ']' :: post)).length + 1 := by
      simp only [List.length_append, List.length_cons]
      omega
    rw [hfe, tsScanF_cons_some _ (tryTs_canonical hm hml hsec hsl)]
    have hpost : tsScanF (m ++ '.' :: (sec ++ ']' :: post)).length post
        = tsScanF post.length post := by
      apply tsScanF_fuelInv
      · simp only [List.length_append, List.length_cons]
        omega
      · exact Nat.le_refl _
    rw [hpost]
    simp

def c6wA : String := "[12:30] x [4.5] [123.45]"

def c6wB : List Char := "[4.5] ".data

theorem C6_timestamp_rewrite_contract_witness :
    normalizeTimestampsStage c6wA = c6wA ∧
    tsScan (c6wB ++ '[' :: (['4'] ++ '.' :: (['0', '5'] ++ ']' :: []))) =
      c6wB ++ '[' :: (padMin ['4'] ++ ':' :: (['0', '5'] ++ ']' :: tsScan [])) ∧
    (∃ pre m sec post, "x [4.05]".data
        = pre ++ '[' :: (m ++ '.' :: (sec ++ ']' :: post)) ∧
      noTsBefore pre ('[' :: (m ++ '.' :: (sec ++ ']' :: post))) = true ∧
      m.all Char.isDigit = true ∧ (m.length = 1 ∨ m.length = 2) ∧
      sec.all Char.isDigit = true ∧ sec.length = 2) :=
  ⟨C6_timestamp_rewrite_contract.1 c6wA (by decide),
   C6_timestamp_rewrite_contract.2.1 c6wB ['4'] ['0', '5'] [] (by decide)
     (by decide) (Or.inl (by decide)) (by decide) (by decide),
   C6_timestamp_rewrite_contract.2.2 "x [4.05]".data (by decide)⟩


/-! ## C8: per-line behaviour of the post-pass -/

end AiVoice
